import Mathlib

/-!
# The tar decoder of `src/resources/untar.js`

A shallow embedding of `UntarScope` (the `PaxHeader` parser, the `Untar`
decoder) together with the JavaScript built-ins the decoder calls, followed by
theorems about the decoder.

Conventions of the embedding.

* An `ArrayBuffer` is the list of its bytes (naturals below 256).
* A JavaScript string is the list of its code points.  Both decoders used by
  the program emit Unicode scalar values only, so nothing is lost with respect
  to UTF-16 code units for the operations the program performs (`length === 0`,
  `+`, `split`, `trim`, `replace`, `indexOf`, `substr` on the one-byte decoding).
* A JavaScript number is an `Int` or NaN.  Every number the decoder computes is
  a sum of parsed field values and stays an exact integer; `-0` is identified
  with `0` (the program only compares it with `!== 0` and adds it).
* A `throw` is the `Except.error` of the thrown error.  Recursion and the
  `while` loop of `untar` take a fuel argument; `Err.outOfFuel` is not a
  JavaScript exception but the mark of a run that the given fuel did not finish.
-/

namespace UntarScope

/-! ## JavaScript values -/

/-- A JavaScript string, as the list of its code points. -/
abbrev JSString := List Nat

/-- A JavaScript number as the decoder uses it: an integer, or NaN (`none`). -/
abbrev Num := Option Int

/-- The errors a run can end with. -/
inductive Err where
  /-- The `new Error('Invalid PAX header data format.')` of lines 33 and 42. -/
  | invalidPax
  /-- A `RangeError` thrown by a built-in (`DataView`, `Uint8Array`, `getUint32`). -/
  | rangeError
  /-- Not an exception: the fuel given to the model ran out. -/
  | outOfFuel
  deriving DecidableEq, Repr

/-- The text of `asc s`: the code points of a Lean string literal. -/
def asc (s : String) : JSString := s.toList.map Char.toNat

/-- JavaScript `a + b` on numbers. -/
def Num.add (a b : Num) : Num :=
  match a, b with
  | some x, some y => some (x + y)
  | _, _ => none

/-- JavaScript `a - b` on numbers. -/
def Num.sub (a b : Num) : Num :=
  match a, b with
  | some x, some y => some (x - y)
  | _, _ => none

/-- JavaScript `a % b`: the remainder has the sign of the dividend. -/
def Num.rem (a b : Num) : Num :=
  match a, b with
  | some x, some y => if y = 0 then none else some (Int.tmod x y)
  | _, _ => none

/-- JavaScript `a < b` on numbers: false as soon as one side is NaN. -/
def Num.lt (a b : Num) : Bool :=
  match a, b with
  | some x, some y => decide (x < y)
  | _, _ => false

/-- `ToString` of a number (integers in decimal, `NaN`). -/
def Num.toJSString : Num → JSString
  | none => asc "NaN"
  | some i =>
    (if i < 0 then asc "-" else []) ++ (Nat.toDigits 10 i.natAbs).map Char.toNat

/-- `WhiteSpace` and `LineTerminator` code points: what `trim` and `parseInt`
strip. -/
def isWhiteSpace (c : Nat) : Bool :=
  c = 0x09 || c = 0x0A || c = 0x0B || c = 0x0C || c = 0x0D || c = 0x20 ||
  c = 0xA0 || c = 0x1680 || (0x2000 ≤ c && c ≤ 0x200A) || c = 0x2028 ||
  c = 0x2029 || c = 0x202F || c = 0x205F || c = 0x3000 || c = 0xFEFF

/-- `String.prototype.trim`. -/
def trim (s : JSString) : JSString :=
  ((s.dropWhile isWhiteSpace).reverse.dropWhile isWhiteSpace).reverse

/-- `String.prototype.substr(start, length)` for `0 ≤ start`. -/
def substr (s : JSString) (start length : Nat) : JSString :=
  (s.drop start).take length

/-- `s.replace(/\0/g, '')`. -/
def removeNul (s : JSString) : JSString := s.filter (fun c => c != 0)

/-- `s.indexOf(pat) !== -1`. -/
def includes (pat : JSString) : JSString → Bool
  | [] => pat.isEmpty
  | c :: cs => pat.isPrefixOf (c :: cs) || includes pat cs

/-- `s.split(sep)` for a separator of one character. -/
def split (sep : Nat) : JSString → List JSString
  | [] => [[]]
  | c :: cs =>
    if c = sep then [] :: split sep cs
    else
      match split sep cs with
      | [] => [[c]]
      | p :: ps => (c :: p) :: ps

/-- The value of a digit character in a radix up to 36, if it is one. -/
def digitValue (c : Nat) : Option Nat :=
  if 48 ≤ c ∧ c ≤ 57 then some (c - 48)
  else if 97 ≤ c ∧ c ≤ 122 then some (c - 87)
  else if 65 ≤ c ∧ c ≤ 90 then some (c - 55)
  else none

/-- Whether `c` is a digit of the radix. -/
def isRadixDigit (radix : Nat) (c : Nat) : Bool :=
  match digitValue c with
  | some d => decide (d < radix)
  | none => false

/-- The value of a string of digits, most significant first. -/
def digitsValue (radix : Nat) (ds : JSString) : Nat :=
  ds.foldl (fun acc c => acc * radix + (digitValue c).getD 0) 0

/-- `parseInt(s, radix)` for the radices the program uses (8 and 10, for which
no `0x` prefix is stripped): leading white space is skipped, one sign is read,
then the longest run of digits; no digit gives NaN. -/
def parseInt (s : JSString) (radix : Nat) : Num :=
  let t := s.dropWhile isWhiteSpace
  let neg := t.head? == some 45
  let u := if t.head? == some 45 || t.head? == some 43 then t.tail else t
  let ds := u.takeWhile (isRadixDigit radix)
  if ds.isEmpty then none
  else if neg then some (-(digitsValue radix ds : Int))
  else some (digitsValue radix ds : Int)

/-! ## Text decoders -/

/-- The rows 0x80 to 0x9F of the windows-1252 index. -/
def windows1252High : List Nat :=
  [0x20AC, 0x0081, 0x201A, 0x0192, 0x201E, 0x2026, 0x2020, 0x2021,
   0x02C6, 0x2030, 0x0160, 0x2039, 0x0152, 0x008D, 0x017D, 0x008F,
   0x0090, 0x2018, 0x2019, 0x201C, 0x201D, 0x2022, 0x2013, 0x2014,
   0x02DC, 0x2122, 0x0161, 0x203A, 0x0153, 0x009D, 0x017E, 0x0178]

/-- The code point `new TextDecoder('windows-1252')` gives one byte. -/
def windows1252 (b : Nat) : Nat :=
  if 0x80 ≤ b ∧ b < 0xA0 then windows1252High.getD (b - 0x80) b else b

/-- The function `asciiDecoder.decode`: one code point per byte. -/
def asciiDecode (bytes : List Nat) : JSString := bytes.map windows1252

/-- The state of the UTF-8 decoder between two bytes: nothing pending, or a
code point under construction with the number of bytes still needed and the
bounds of the next byte. -/
inductive Utf8State where
  | clean
  | pending (codePoint needed lower upper : Nat)
  deriving DecidableEq, Repr

/-- The UTF-8 decoder on a byte when no sequence is pending: the code points
emitted and the next state. -/
def utf8Start (b : Nat) : List Nat × Utf8State :=
  if b ≤ 0x7F then ([b], .clean)
  else if 0xC2 ≤ b ∧ b ≤ 0xDF then ([], .pending (b % 32) 1 0x80 0xBF)
  else if 0xE0 ≤ b ∧ b ≤ 0xEF then
    ([], .pending (b % 16) 2 (if b = 0xE0 then 0xA0 else 0x80)
      (if b = 0xED then 0x9F else 0xBF))
  else if 0xF0 ≤ b ∧ b ≤ 0xF4 then
    ([], .pending (b % 8) 3 (if b = 0xF0 then 0x90 else 0x80)
      (if b = 0xF4 then 0x8F else 0xBF))
  else ([0xFFFD], .clean)

/-- The UTF-8 decoder of the Encoding standard with replacement (not fatal):
a byte outside the expected bounds ends the pending sequence with U+FFFD and
is decoded again from the clean state. -/
def utf8Run : Utf8State → List Nat → List Nat
  | .clean, [] => []
  | .pending _ _ _ _, [] => [0xFFFD]
  | .clean, b :: bs => (utf8Start b).1 ++ utf8Run (utf8Start b).2 bs
  | .pending cp needed lower upper, b :: bs =>
    if lower ≤ b ∧ b ≤ upper then
      if needed = 1 then (cp * 64 + b % 64) :: utf8Run .clean bs
      else utf8Run (.pending (cp * 64 + b % 64) (needed - 1) 0x80 0xBF) bs
    else 0xFFFD :: ((utf8Start b).1 ++ utf8Run (utf8Start b).2 bs)

/-- The states the UTF-8 decoder can be in between two bytes: a pending
sequence expects a continuation byte, and the code point it will emit is not
an ASCII one. -/
def Utf8State.Good : Utf8State → Prop
  | .clean => True
  | .pending cp needed lower upper =>
    128 ≤ lower ∧ upper ≤ 191 ∧ 1 ≤ needed ∧ 1 ≤ cp * 64 + lower % 64 ∧
      (needed = 1 → 1 ≤ cp)

/-- The function `utfDecoder.decode`: UTF-8 decoding, then a leading byte order
mark is dropped. -/
def utfDecode (bytes : List Nat) : JSString :=
  match utf8Run .clean bytes with
  | 0xFEFF :: rest => rest
  | out => out

/-! ## Buffers and views -/

/-- The abstract operation `ToIndex`: NaN is 0, a negative index is a
`RangeError`.  (An index above `2 ^ 53 - 1` is a `RangeError` too; it is above
the length of every buffer, and `view` rejects it with the same error.) -/
def toIndex : Num → Except Err Nat
  | none => .ok 0
  | some i => if i < 0 then .error .rangeError else .ok i.toNat

/-- The bytes seen by `new DataView(buffer, byteOffset, length)` and by
`new Uint8Array(buffer, byteOffset, length)`: a `RangeError` unless the range
lies inside the buffer. -/
def view (buffer : List Nat) (byteOffset length : Num) : Except Err (List Nat) :=
  match toIndex byteOffset, toIndex length with
  | .ok o, .ok l =>
    if o + l ≤ buffer.length then .ok ((buffer.drop o).take l)
    else .error .rangeError
  | _, _ => .error .rangeError

/-- The call `getUint32(byteOffset)` on the view of the whole buffer
(big-endian). -/
def getUint32 (buffer : List Nat) (byteOffset : Num) : Except Err Nat :=
  match view buffer byteOffset (some 4) with
  | .ok bytes => .ok (bytes.foldl (fun acc b => acc * 256 + b) 0)
  | .error e => .error e

/-- How `ArrayBuffer.prototype.slice` clamps one of its arguments. -/
def clampIndex (len : Nat) : Num → Nat
  | none => 0
  | some i => if i < 0 then (len + i).toNat else min i.toNat len

/-- The call `buffer.slice(begin, end)`: it clamps and never throws. -/
def arrayBufferSlice (buffer : List Nat) (begin_ end_ : Num) : List Nat :=
  (buffer.drop (clampIndex buffer.length begin_)).take
    (clampIndex buffer.length end_ - clampIndex buffer.length begin_)

/-! ## File descriptors -/

/-- The values a property of a file descriptor holds. -/
inductive Value where
  | str (s : JSString)
  | num (n : Num)
  | null
  deriving DecidableEq, Repr

/-- A file descriptor `{name, start, size, url}`: the own properties of the
object, in insertion order. -/
abbrev File := List (JSString × Value)

/-- The file descriptor `{name, start, size, url}` built at line 170. -/
def fileOf (name : JSString) (start size : Num) (url : Value) : File :=
  [(asc "name", .str name), (asc "start", .num start), (asc "size", .num size),
   (asc "url", url)]

/-- The read `file[key]` of an own property (`none`: the property is absent). -/
def File.get (file : File) (key : JSString) : Option Value :=
  match file with
  | [] => none
  | (k, v) :: rest => if k = key then some v else File.get rest key

/-- Writing an own property: in place when it exists, appended otherwise. -/
def File.put (file : File) (key : JSString) (value : Value) : File :=
  match file with
  | [] => [(key, value)]
  | (k, v) :: rest =>
    if k = key then (k, value) :: rest else (k, v) :: File.put rest key value

/-- The assignment `file[key] = value`.  The key `__proto__` is not stored: it
resolves to the accessor inherited from `Object.prototype`, whose setter
ignores a value that is not an object and creates no own property. -/
def File.assign (file : File) (key : JSString) (value : Value) : File :=
  if key = asc "__proto__" then file else File.put file key value

/-- The statement `delete file[key]`. -/
def File.delete (file : File) (key : JSString) : File :=
  file.filter (fun p => p.1 != key)

/-- JavaScript truthiness of a property read. -/
def truthy : Option Value → Bool
  | some (.str s) => !s.isEmpty
  | some (.num (some i)) => i != 0
  | some (.num none) => false
  | some .null => false
  | none => false

/-- The string `prefix + value` (`ToString` of the right operand). -/
def concatValue (pre : JSString) : Option Value → JSString
  | some (.str s) => pre ++ s
  | some (.num n) => pre ++ n.toJSString
  | some .null => pre ++ asc "null"
  | none => pre ++ asc "undefined"

/-! ## PAX headers -/

/-- One field of a PAX header; the value `none` is the `null` of line 46. -/
structure PaxField where
  name : JSString
  value : Option JSString
  deriving DecidableEq, Repr

/-- The object `new PaxHeader(fields)`. -/
structure PaxHeader where
  fields : List PaxField
  deriving DecidableEq, Repr

/-- The `for` loop of lines 27 to 30: the first index from `bytesRead` on that
holds a space, or the length of the array. -/
def findSpace (paxArray : List Nat) (bytesRead : Nat) : Nat :=
  bytesRead + ((paxArray.drop bytesRead).takeWhile (fun b => b != 0x20)).length

/-- The `while` loop of `PaxHeader.parse` (lines 25 to 55).  `paxArray` has
exactly `length` elements, so `bytesRead < length` is `bytesRead <
paxArray.length`.  When line 54 is reached `fieldLength` is a number (NaN
gives an empty `fieldText` and the throw of line 42) that is at least 2. -/
def PaxHeader.parseLoop (buffer : List Nat) (start : Num) (paxArray : List Nat) :
    Nat → Nat → List PaxField → Except Err PaxHeader
  | 0, _, _ => .error .outOfFuel
  | fuel + 1, bytesRead, fields =>
    if bytesRead < paxArray.length then
      let spaceIndex := findSpace paxArray bytesRead
      if spaceIndex ≥ paxArray.length then .error .invalidPax
      else
        match view buffer (start.add (some bytesRead))
            (some ((spaceIndex : Int) - bytesRead)) with
        | .error e => .error e
        | .ok lengthBytes =>
          let fieldLength := parseInt (utfDecode lengthBytes) 10
          match view buffer ((start.add (some spaceIndex)).add (some 1))
              ((fieldLength.sub (some ((spaceIndex : Int) - bytesRead))).sub (some 2)) with
          | .error e => .error e
          | .ok textBytes =>
            match split 61 (utfDecode textBytes) with
            | [name, value] =>
              PaxHeader.parseLoop buffer start paxArray fuel
                (bytesRead + (fieldLength.getD 0).toNat)
                (fields ++ [⟨name, if value.isEmpty then none else some value⟩])
            | _ => .error .invalidPax
    else .ok ⟨fields⟩

/-- The function `PaxHeader.parse(buffer, start, length)`.  Every iteration
adds at least 2 to `bytesRead`, so `length + 1` iterations are more than the
loop can make. -/
def PaxHeader.parse (buffer : List Nat) (start length : Num) : Except Err PaxHeader :=
  match view buffer start length with
  | .error e => .error e
  | .ok paxArray =>
    PaxHeader.parseLoop buffer start paxArray (paxArray.length + 1) 0 []

/-- The `fieldName` of lines 62 to 67: the attribute a field is about, `path`
standing for `name`. -/
def PaxField.attribute (field : PaxField) : JSString :=
  if field.name = asc "path" then asc "name" else field.name

/-- One iteration of the loop of `applyHeader` (lines 62 to 73). -/
def applyField (file : File) (field : PaxField) : File :=
  match field.value with
  | none => File.delete file field.attribute
  | some fieldValue => File.assign file field.attribute (.str fieldValue)

/-- The method `PaxHeader.prototype.applyHeader(file)`. -/
def PaxHeader.applyHeader (header : PaxHeader) (file : File) : File :=
  header.fields.foldl applyField file

/-- The statement `if (header) { header.applyHeader(file); }` of lines 177 to
183. -/
def applyOptional (header : Option PaxHeader) (file : File) : File :=
  match header with
  | some h => h.applyHeader file
  | none => file

/-! ## The decoder -/

/-- What `UntarScope` closes over: the `isWorker` flag, and the browser's
`URL.createObjectURL` as a function of the bytes of the blob. -/
structure Scope where
  isWorker : Bool
  createObjectURL : List Nat → JSString

/-- The mutable fields of an `Untar` object (the buffer never changes). -/
structure Untar where
  globalPaxHeader : Option PaxHeader
  bytesRead : Num
  deriving DecidableEq, Repr

/-- The object `new Untar(arrayBuffer)` of lines 84 to 89. -/
def Untar.new : Untar := ⟨none, some 0⟩

/-- The method `_hasNext` (line 99). -/
def Untar._hasNext (buffer : List Nat) (self : Untar) : Except Err Bool :=
  if (self.bytesRead.add (some 4)).lt (some buffer.length) then
    match getUint32 buffer self.bytesRead with
    | .ok word => .ok (word != 0)
    | .error e => .error e
  else .ok false

/-- The locals of `_readNextFile` after line 156, for one header record. -/
structure Record where
  name : JSString
  ustarFormat : JSString
  namePrefix : JSString
  size : Num
  type : JSString
  start : Num
  url : Value
  paxHeader : Option PaxHeader
  moveToNextFile : Bool
  self : Untar

/-- Lines 111 to 156 of `_readNextFile`: the header is read and decoded, the
type flag is dispatched on, and the cursor moves past the data and its
padding. -/
def Untar.readRecord (scope : Scope) (buffer : List Nat) (self : Untar) :
    Except Err Record :=
  match view buffer self.bytesRead (some 512) with
  | .error e => .error e
  | .ok headerBytes =>
    let headers := asciiDecode headerBytes
    let bytesRead := self.bytesRead.add (some 512)
    let name := removeNul (substr headers 0 100)
    let ustarFormat := substr headers 257 6
    let size := parseInt (substr headers 124 12) 8
    let type := substr headers 156 1
    let start := bytesRead
    let skip : Num :=
      if Num.rem size (some 512) != some 0 then Num.sub (some 512) (Num.rem size (some 512))
      else some 0
    let next : Num := (bytesRead.add size).add skip
    let mk (url : Value) (paxHeader : Option PaxHeader) (move : Bool)
        (global : Option PaxHeader) : Record :=
      ⟨name, ustarFormat, removeNul (substr headers 345 155), size, type, start,
        url, paxHeader, move, ⟨global, next⟩⟩
    if type = asc "0" ∨ type = [] then
      let url :=
        if scope.isWorker then Value.null
        else .str (scope.createObjectURL
          (arrayBufferSlice buffer bytesRead (bytesRead.add size)))
      .ok (mk url none false self.globalPaxHeader)
    else if type = asc "g" then
      match PaxHeader.parse buffer bytesRead size with
      | .error e => .error e
      | .ok header => .ok (mk .null none true (some header))
    else if type = asc "x" then
      match PaxHeader.parse buffer bytesRead size with
      | .error e => .error e
      | .ok header => .ok (mk .null (some header) true self.globalPaxHeader)
    else .ok (mk .null none true self.globalPaxHeader)

/-- Lines 162 to 168 of `_readNextFile`: the name, with the ustar name prefix
before it when the header has the magic and the prefix is not empty. -/
def Record.mergedName (r : Record) : JSString :=
  if includes (asc "ustar") r.ustarFormat ∧ r.namePrefix.length > 0 then
    trim r.namePrefix ++ trim r.name
  else r.name

/-- Lines 170 to 185 of `_readNextFile`: the file descriptor of a record that
was not skipped, after the global header and then the local one. -/
def Record.toFile (r : Record) : File :=
  applyOptional r.paxHeader
    (applyOptional r.self.globalPaxHeader (fileOf r.mergedName r.start r.size r.url))

/-- The method `_readNextFile`: the file descriptor returned and the decoder
afterwards.  The local `paxHeader` of a call that skips its record is not
passed to the recursive call of line 159. -/
def Untar._readNextFile (scope : Scope) (buffer : List Nat) :
    Nat → Untar → Except Err (File × Untar)
  | 0, _ => .error .outOfFuel
  | fuel + 1, self =>
    match Untar.readRecord scope buffer self with
    | .error e => .error e
    | .ok r =>
      if r.moveToNextFile then Untar._readNextFile scope buffer fuel r.self
      else .ok (r.toFile, r.self)

/-- Lines 200 to 202 of `untar`: the prefix is put before a truthy name. -/
def addPrefix (filenamePrefix : Option JSString) (file : File) : File :=
  match filenamePrefix with
  | some pre =>
    if !pre.isEmpty && truthy (file.get (asc "name")) then
      File.assign file (asc "name") (.str (concatValue pre (file.get (asc "name"))))
    else file
  | none => file

/-- The `while` loop of `untar` (lines 198 to 204), `files` being the array
built so far; each call of `_readNextFile` gets the fuel `depth`. -/
def Untar.untarLoop (scope : Scope) (buffer : List Nat)
    (filenamePrefix : Option JSString) (depth : Nat) :
    Nat → Untar → List File → Except Err (List File)
  | 0, _, _ => .error .outOfFuel
  | fuel + 1, self, files =>
    match Untar._hasNext buffer self with
    | .error e => .error e
    | .ok false => .ok files
    | .ok true =>
      match Untar._readNextFile scope buffer depth self with
      | .error e => .error e
      | .ok (file, self') =>
        Untar.untarLoop scope buffer filenamePrefix depth fuel self'
          (files ++ [addPrefix filenamePrefix file])

/-- The method `untar(filenamePrefix)` on a fresh `new Untar(buffer)`, with
`fuel` iterations of the loop and `fuel` nested calls of `_readNextFile`. -/
def Untar.untarFuel (fuel : Nat) (scope : Scope) (buffer : List Nat)
    (filenamePrefix : Option JSString) : Except Err (List File) :=
  Untar.untarLoop scope buffer filenamePrefix fuel fuel Untar.new []

/-- The method `untar(filenamePrefix)` on a fresh `new Untar(buffer)`.  The
fuel is one more than the length of the buffer. -/
def Untar.untar (scope : Scope) (buffer : List Nat)
    (filenamePrefix : Option JSString) : Except Err (List File) :=
  Untar.untarFuel (buffer.length + 1) scope buffer filenamePrefix

/-! ## Archives -/

/-- One record of an archive: the 512-byte header, the data, and the bytes
that pad the data to the next multiple of 512; `name` is the name the header
holds. -/
structure TarRecord where
  name : List Nat
  header : List Nat
  data : List Nat
  padding : List Nat
  deriving DecidableEq, Repr

/-- The bytes of a record. -/
def TarRecord.bytes (r : TarRecord) : List Nat := r.header ++ r.data ++ r.padding

/-- The bytes of consecutive records. -/
def archive : List TarRecord → List Nat
  | [] => []
  | r :: rs => r.bytes ++ archive rs

/-- The number of bytes that pad `size` bytes of data. -/
def padLength (size : Nat) : Nat := (512 - size % 512) % 512

/-- A 512-byte header whose name field (bytes 0 to 99) is the non-empty `name`
padded with NUL, whose size field (bytes 124 to 135) reads as `size` in octal
and whose type flag (byte 156) is `type`. -/
def IsHeader (h name : List Nat) (size type : Nat) : Prop :=
  h.length = 512 ∧ name ≠ [] ∧ name.length ≤ 100 ∧ 0 ∉ name ∧
  h.take 100 = name ++ List.replicate (100 - name.length) 0 ∧
  parseInt (asciiDecode ((h.drop 124).take 12)) 8 = some (size : Int) ∧
  (h.drop 156).take 1 = [type]

/-- A record of type `type` named `name`: its header gives the length of its
data, and the data are padded to the next multiple of 512. -/
def IsRecord (r : TarRecord) (type : Nat) : Prop :=
  IsHeader r.header r.name r.data.length type ∧
  r.padding.length = padLength r.data.length

/-- A normal record (type flag `'0'`) without a ustar name prefix: the prefix
field (bytes 345 to 499) is all NUL. -/
def IsNormalRecord (r : TarRecord) : Prop :=
  IsRecord r 48 ∧ ∀ b ∈ (r.header.drop 345).take 155, b = 0

/-- The last `width` octal digits of `value`, most significant first, as
ASCII bytes. -/
def octalDigits : Nat → Nat → List Nat
  | 0, _ => []
  | width + 1, value => octalDigits width (value / 8) ++ [48 + value % 8]

/-- A header block as tar writers lay it out, with the fields the decoder does
not read left at NUL: the name, the size in 11 octal digits and a NUL, the
type flag. -/
def mkHeader (name : List Nat) (size type : Nat) : List Nat :=
  name ++ List.replicate (100 - name.length) 0 ++ List.replicate 24 0 ++
    (octalDigits 11 size ++ [0]) ++ List.replicate 20 0 ++ [type] ++
    List.replicate 355 0

/-- The record with the given name, type flag and data, NUL-padded. -/
def mkRecord (name : List Nat) (type : Nat) (data : List Nat) : TarRecord :=
  ⟨name, mkHeader name data.length type, data,
    List.replicate (padLength data.length) 0⟩

/-- The bytes of a header field of `width` bytes that holds `text`, padded
with NUL. -/
def padField (width : Nat) (text : List Nat) : List Nat :=
  text ++ List.replicate (width - text.length) 0

/-- A header block given by the text of the fields the decoder reads (name at
0, size at 124, type flag at 156, magic at 257, name prefix at 345); the
other fields are left at NUL. -/
def mkHeaderFields (name sizeField : List Nat) (type : Nat)
    (magic namePrefix : List Nat) : List Nat :=
  padField 100 name ++ List.replicate 24 0 ++ padField 12 sizeField ++
    List.replicate 20 0 ++ [type] ++ List.replicate 100 0 ++ padField 6 magic ++
    List.replicate 82 0 ++ padField 155 namePrefix ++ List.replicate 12 0

/-- One record of PAX data in the standard form `<L> <key>=<value>\n`:
`digits` are the decimal digits of `L`. -/
structure PaxRecord where
  digits : List Nat
  key : List Nat
  value : List Nat
  deriving DecidableEq, Repr

/-- The bytes of a PAX record: the digits, a space, the key, `=`, the value
and a newline. -/
def PaxRecord.bytes (r : PaxRecord) : List Nat :=
  r.digits ++ 32 :: ((r.key ++ 61 :: r.value) ++ [10])

/-- A PAX record in the standard form: the digits give the length of the whole
record (digits, space and newline included), the key is not empty, and key
and value are ASCII without `=`. -/
def IsPaxRecord (r : PaxRecord) : Prop :=
  r.digits ≠ [] ∧ (∀ c ∈ r.digits, 48 ≤ c ∧ c ≤ 57) ∧
  digitsValue 10 r.digits = r.bytes.length ∧ r.key ≠ [] ∧
  (∀ b ∈ r.key, b < 128 ∧ b ≠ 61) ∧ (∀ b ∈ r.value, b < 128 ∧ b ≠ 61)

/-- The bytes of consecutive PAX records. -/
def paxData : List PaxRecord → List Nat
  | [] => []
  | r :: rs => r.bytes ++ paxData rs

/-- The field a PAX record stands for: an empty value is the absent marker. -/
def PaxRecord.field (r : PaxRecord) : PaxField :=
  ⟨r.key, if r.value.isEmpty then none else some r.value⟩

/-- The decoder of a worker, `UntarScope(true)`: no object URL is made. -/
def workerScope : Scope := ⟨true, fun _ => []⟩

/-- The decoder of the main thread, `UntarScope()`, in a browser that gives
every blob the object URL `blob:`. -/
def directScope : Scope := ⟨false, fun _ => asc "blob:"⟩

/-- The `url` of the descriptor of a record with the given data. -/
def urlOf (scope : Scope) (data : List Nat) : Value :=
  if scope.isWorker then .null else .str (scope.createObjectURL data)

/-- The descriptors `untar` builds for consecutive normal records that begin
at offset `offset`, when the global header is `g` and the prefix `pre`. -/
def entriesFrom (scope : Scope) (g : Option PaxHeader) (pre : Option JSString) :
    Nat → List TarRecord → List File
  | _, [] => []
  | offset, r :: rs =>
    addPrefix pre (applyOptional g (fileOf (asciiDecode r.name)
      (some ((offset + 512 : Nat) : Int)) (some (r.data.length : Int))
      (urlOf scope r.data))) ::
    entriesFrom scope g pre
      (offset + 512 + r.data.length + padLength r.data.length) rs

instance (h name : List Nat) (size type : Nat) : Decidable (IsHeader h name size type) := by
  unfold IsHeader; infer_instance

instance (r : TarRecord) (type : Nat) : Decidable (IsRecord r type) := by
  unfold IsRecord; infer_instance

instance (r : TarRecord) : Decidable (IsNormalRecord r) := by
  unfold IsNormalRecord; infer_instance

instance (r : PaxRecord) : Decidable (IsPaxRecord r) := by
  unfold IsPaxRecord; infer_instance

instance decEqExcept {ε α : Type} [DecidableEq ε] [DecidableEq α] :
    DecidableEq (Except ε α) :=
  fun a b =>
    match a, b with
    | .ok x, .ok y =>
      if h : x = y then isTrue (congrArg Except.ok h)
      else isFalse (fun h2 => h (Except.ok.inj h2))
    | .error x, .error y =>
      if h : x = y then isTrue (congrArg Except.error h)
      else isFalse (fun h2 => h (Except.error.inj h2))
    | .ok _, .error _ => isFalse (fun h => Except.noConfusion h)
    | .error _, .ok _ => isFalse (fun h => Except.noConfusion h)

/-! ## The worker -/

/-- What the response handler of `UntarWorker.untar` uses of the main thread:
`URL.createObjectURL` as a function of the bytes of the blob, and the integer
a string converts to when it is an argument of `slice`
(`ToIntegerOrInfinity(ToNumber(s))`). -/
structure MainThread where
  createObjectURL : List Nat → JSString
  stringToInteger : JSString → Num

/-- The message the worker posts back: `{ files: files }` (line 215) or
`{ error: err.toString() }` (line 217). -/
inductive Reply where
  | files (files : List File)
  | error (err : Err)
  deriving DecidableEq, Repr

/-- How a run of the body of `UntarScope` ends. -/
inductive ScopeOutcome where
  /-- The assignment `Untar = function ...` of line 84 throws a
  `ReferenceError`: the body is strict code (line 11) and no variable `Untar`
  is in scope.  Nothing after line 84 is run. -/
  | referenceError
  /-- The body ran to its end; `onmessage` tells whether `self.onmessage` was
  set (lines 210 to 220). -/
  | done (onmessage : Bool)
  deriving DecidableEq, Repr

/-- The call `UntarScope(isWorker)` where a variable `Untar` is in scope
(`untarDeclared`) or not.  The body is strict code, so that line 84 throws
when `Untar` is not declared; otherwise the handler is set when `isWorker`
holds (line 210). -/
def runUntarScope (untarDeclared isWorker : Bool) : ScopeOutcome :=
  match untarDeclared with
  | false => .referenceError
  | true => .done isWorker

/-- The call `UntarScope()` of line 307, inside the function that declares
`var Untar` (line 2). -/
def mainScript : ScopeOutcome := runUntarScope true false

/-- The script of the worker (lines 222 to 228, run by `new Worker(WORKER_URL)`
at line 247): the text of the function `UntarScope` called with `true`, and
nothing else.  The `var Untar` of line 2 is not part of that text, and the
global scope of a worker has no variable `Untar`. -/
def workerScript : ScopeOutcome := runUntarScope false true

/-- The function of lines 211 to 219 that `UntarScope(true)` assigns to
`self.onmessage`: the reply it posts, if `untar` ends. -/
def onmessageHandler (filenamePrefix : Option JSString) (arrayBuffer : List Nat) :
    Option Reply :=
  match Untar.untar workerScope arrayBuffer filenamePrefix with
  | .ok files => some (.files files)
  | .error .outOfFuel => none
  | .error err => some (.error err)

/-- What the worker posts back for a message posted to it: the reply of its
handler when its script has set one, and nothing otherwise. -/
def workerOnmessage (filenamePrefix : Option JSString) (arrayBuffer : List Nat) :
    Option Reply :=
  match workerScript with
  | .done true => onmessageHandler filenamePrefix arrayBuffer
  | _ => none

/-- `ToString` of a property read. -/
def toJSString : Option Value → JSString
  | some (.str s) => s
  | some (.num n) => n.toJSString
  | some .null => asc "null"
  | none => asc "undefined"

/-- JavaScript `a + b` on two property reads: concatenation as soon as one of
them is a string, the sum of the numbers otherwise (`undefined` is NaN, `null`
is 0). -/
def jsAdd (a b : Option Value) : Value :=
  match a, b with
  | some (.str s), _ => .str (s ++ toJSString b)
  | _, some (.str s) => .str (toJSString a ++ s)
  | _, _ =>
    let toNumber : Option Value → Num := fun v =>
      match v with
      | some (.num n) => n
      | some .null => some 0
      | _ => none
    .num (Num.add (toNumber a) (toNumber b))

/-- The integer an argument of `slice` converts to. -/
def sliceArgument (env : MainThread) : Option Value → Num
  | some (.str s) => env.stringToInteger s
  | some (.num n) => n
  | some .null => some 0
  | none => none

/-- Lines 270 to 272 of the response handler: the `url` of one file is made
from the array buffer of the request. -/
def resolveUrl (env : MainThread) (arrayBuffer : List Nat) (file : File) : File :=
  File.assign file (asc "url")
    (.str (env.createObjectURL (arrayBufferSlice arrayBuffer
      (sliceArgument env (file.get (asc "start")))
      (sliceArgument env
        (some (jsAdd (file.get (asc "start")) (file.get (asc "size"))))))))

/-- Lines 264 to 276 of the response handler: what the callback is called
with, `callback(error)` or `callback(null, files)`. -/
def callbackArguments (env : MainThread) (arrayBuffer : List Nat) :
    Reply → Except Err (List File)
  | .error err => .error err
  | .files files => .ok (files.map (resolveUrl env arrayBuffer))

/-- A listener registered by a call of `UntarWorker.untar`: the call it comes
from (whose callback it calls) and the array buffer it closes over. -/
structure Listener where
  request : Nat
  arrayBuffer : List Nat
  deriving DecidableEq, Repr

/-- One call of a callback: the request it belongs to and its arguments. -/
structure Call where
  request : Nat
  arguments : Except Err (List File)
  deriving DecidableEq, Repr

/-- An `UntarWorker` with its worker: the fields `_pendingRequests` and
`_filenamePrefix`, the `message` listeners registered on `_worker` in the
order of their registration, the messages posted to the worker for which it
has posted no reply (the requests whose response has not come), the number of
calls of `untar` so far and the calls of callbacks so far. -/
structure UntarWorker where
  pendingRequests : Int
  filenamePrefix : Option JSString
  listeners : List Listener
  posted : List (Option JSString × List Nat)
  requests : Nat
  calls : List Call
  deriving DecidableEq, Repr

/-- The constructor `new UntarWorker(filenamePrefix)` (lines 244 to 248). -/
def UntarWorker.new (filenamePrefix : Option JSString) : UntarWorker :=
  ⟨0, filenamePrefix, [], [], 0, []⟩

/-- The method `untar(arrayBuffer, callback)` (lines 259 to 283): the count
goes up, the listener is registered and the message is posted. -/
def UntarWorker.untar (self : UntarWorker) (arrayBuffer : List Nat) : UntarWorker :=
  { self with
    pendingRequests := self.pendingRequests + 1
    listeners := self.listeners ++ [⟨self.requests, arrayBuffer⟩]
    posted := self.posted ++ [(self.filenamePrefix, arrayBuffer)]
    requests := self.requests + 1 }

/-- The listener `onmessage` of lines 261 to 277 on a reply: it removes
itself, the count goes down, and the callback of its request is called. -/
def UntarWorker.onmessage (env : MainThread) (reply : Reply) (self : UntarWorker)
    (listener : Listener) : UntarWorker :=
  { self with
    listeners := self.listeners.filter (fun l => l.request != listener.request)
    pendingRequests := self.pendingRequests - 1
    calls := self.calls ++
      [⟨listener.request, callbackArguments env listener.arrayBuffer reply⟩] }

/-- A turn of the worker on the oldest message posted to it: when it posts a
reply, the `message` event is dispatched to every listener registered at that
time, in the order of registration.  Nothing happens on the main thread when
nothing was posted or when the worker posts nothing back. -/
def UntarWorker.message (env : MainThread) (self : UntarWorker) : UntarWorker :=
  match self.posted with
  | [] => self
  | (filenamePrefix, arrayBuffer) :: rest =>
    match workerOnmessage filenamePrefix arrayBuffer with
    | none => self
    | some reply =>
      self.listeners.foldl (UntarWorker.onmessage env reply) { self with posted := rest }

/-- The method `hasPendingRequests()` (line 293). -/
def UntarWorker.hasPendingRequests (self : UntarWorker) : Bool :=
  decide (self.pendingRequests > 0)

/-- What happens to an `UntarWorker`: a call of `untar`, or a turn of the
worker on a message posted to it. -/
inductive Event where
  | untar (arrayBuffer : List Nat)
  | message
  deriving DecidableEq, Repr

/-- The `UntarWorker` after a sequence of events. -/
def UntarWorker.run (env : MainThread) (self : UntarWorker) : List Event → UntarWorker
  | [] => self
  | .untar arrayBuffer :: rest => UntarWorker.run env (self.untar arrayBuffer) rest
  | .message :: rest => UntarWorker.run env (self.message env) rest

/-- What holds of an `UntarWorker` at every time. -/
def UntarWorker.Consistent (self : UntarWorker) : Prop :=
  self.pendingRequests = self.listeners.length ∧
  (self.requests : Int) = self.listeners.length + self.calls.length ∧
  (self.listeners.map Listener.request).Nodup ∧
  ∀ l ∈ self.listeners, l.request < self.requests

/-- Two file descriptors that agree on every attribute but `url`. -/
def AgreeButUrl (f w : File) : Prop :=
  ∀ key, key ≠ asc "url" → f.get key = w.get key

/-- A main thread whose object URLs spell out the bytes of the blob, and in
which no string converts to a number. -/
def plainMainThread : MainThread := ⟨fun blob => blob, fun _ => none⟩

/-- The last field of a header that is about the attribute `key`. -/
def lastFieldFor (header : PaxHeader) (key : JSString) : Option PaxField :=
  (header.fields.filter (fun f => f.attribute == key)).getLast?

/-! ## Reading views of a buffer -/

theorem toIndex_natCast (n : Nat) : toIndex (some (n : Int)) = .ok n := by
  simp [toIndex]

theorem view_mid (pre x post : List Nat) (o l : Nat) (ho : o = pre.length)
    (hl : l = x.length) :
    view (pre ++ (x ++ post)) (some (o : Int)) (some (l : Int)) = .ok x := by
  subst ho hl
  simp [view, toIndex_natCast]

theorem windows1252_eq_zero (b : Nat) : windows1252 b = 0 ↔ b = 0 := by
  unfold windows1252
  split
  · rename_i h
    obtain ⟨h1, h2⟩ := h
    constructor
    · intro h0
      exfalso
      interval_cases b <;> simp [windows1252High] at h0
    · intro h0; omega
  · rfl

theorem removeNul_name (name : List Nat) (k : Nat) (h0 : 0 ∉ name) :
    removeNul (asciiDecode (name ++ List.replicate k 0)) = asciiDecode name := by
  simp only [removeNul, asciiDecode, List.map_append, List.filter_append, List.map_replicate]
  have h1 : List.filter (fun c => c != 0) (List.map windows1252 name) = List.map windows1252 name := by
    rw [List.filter_eq_self]
    intro c hc
    rw [List.mem_map] at hc
    obtain ⟨b, hb, rfl⟩ := hc
    have : windows1252 b ≠ 0 := by
      intro h; rw [windows1252_eq_zero] at h; subst h; exact h0 hb
    simpa using this
  have h2 : List.filter (fun c => c != 0) (List.replicate k (windows1252 0)) = [] := by
    rw [List.filter_eq_nil_iff]
    intro c hc
    rw [List.mem_replicate] at hc
    simp [hc.2, windows1252]
  rw [h1, h2, List.append_nil]


theorem substr_asciiDecode (h : List Nat) (i n : Nat) :
    substr (asciiDecode h) i n = asciiDecode ((h.drop i).take n) := by
  simp [substr, asciiDecode, List.map_drop, List.map_take]

theorem rem_natCast (n : Nat) :
    Num.rem (some (n : Int)) (some 512) = some (((n % 512 : Nat)) : Int) := by
  simp [Num.rem, Int.tmod]

theorem skip_eq (n : Nat) :
    (if Num.rem (some (n : Int)) (some 512) != some 0
      then Num.sub (some 512) (Num.rem (some (n : Int)) (some 512)) else some 0)
      = some ((padLength n : Nat) : Int) := by
  rw [rem_natCast]
  unfold padLength
  by_cases h : n % 512 = 0
  · simp [h]
  · have h2 : (some ((n % 512 : Nat) : Int) != some 0) = true := by
      simp; omega
    rw [if_pos h2]
    simp only [Num.sub, Option.some.injEq]
    have : n % 512 < 512 := Nat.mod_lt _ (by norm_num)
    omega

theorem arrayBufferSlice_mid (pre x post : List Nat) (o e : Nat) (ho : o = pre.length)
    (he : e = pre.length + x.length) :
    arrayBufferSlice (pre ++ (x ++ post)) (some (o : Int)) (some (e : Int)) = x := by
  subst ho he
  have h1 : clampIndex (pre ++ (x ++ post)).length (some ((pre.length : Nat) : Int)) = pre.length := by
    simp [clampIndex]
  have h2 : clampIndex (pre ++ (x ++ post)).length (some ((pre.length + x.length : Nat) : Int))
      = pre.length + x.length := by
    simp only [clampIndex]
    rw [if_neg (by omega)]
    simp
    omega
  rw [arrayBufferSlice, h1, h2]
  simp

theorem readRecord_normal (scope : Scope) (pre hd data rest name : List Nat)
    (g : Option PaxHeader) (hh : IsHeader hd name data.length 48) :
    Untar.readRecord scope (pre ++ (hd ++ (data ++ rest))) ⟨g, some (pre.length : Int)⟩ =
      .ok ⟨asciiDecode name, substr (asciiDecode hd) 257 6,
        removeNul (substr (asciiDecode hd) 345 155), some (data.length : Int), [48],
        some ((pre.length + 512 : Nat) : Int), urlOf scope data, none, false,
        ⟨g, some ((pre.length + 512 + data.length + padLength data.length : Nat) : Int)⟩⟩ := by
  obtain ⟨hlen, hne, hnl, h0, hname, hsize, htype⟩ := hh
  have hv : view (pre ++ (hd ++ (data ++ rest))) (some (pre.length : Int)) (some 512) = .ok hd :=
    view_mid pre hd (data ++ rest) pre.length 512 rfl hlen.symm
  have hn : removeNul (substr (asciiDecode hd) 0 100) = asciiDecode name := by
    rw [substr_asciiDecode, List.drop_zero, hname, removeNul_name _ _ h0]
  have hs : parseInt (substr (asciiDecode hd) 124 12) 8 = some (data.length : Int) := by
    rw [substr_asciiDecode, hsize]
  have ht : substr (asciiDecode hd) 156 1 = [48] := by
    rw [substr_asciiDecode, htype]; rfl
  have hu : arrayBufferSlice (pre ++ (hd ++ (data ++ rest))) (some ((pre.length + 512 : Nat) : Int))
      (some ((pre.length + 512 + data.length : Nat) : Int)) = data := by
    have := arrayBufferSlice_mid (pre ++ hd) data rest (pre.length + 512)
      (pre.length + 512 + data.length) (by simp [hlen]) (by simp [hlen])
    simpa [List.append_assoc] using this
  unfold Untar.readRecord
  have a0 : asc "0" = [48] := by decide
  have hadd : Num.add (some (pre.length : Int)) (some 512) = some ((pre.length + 512 : Nat) : Int) := by
    simp [Num.add]
  have hadd2 : Num.add (some ((pre.length + 512 : Nat) : Int)) (some (data.length : Int))
      = some ((pre.length + 512 + data.length : Nat) : Int) := by
    simp [Num.add]
  have hadd3 : Num.add (some ((pre.length + 512 + data.length : Nat) : Int))
      (some (padLength data.length : Int))
      = some ((pre.length + 512 + data.length + padLength data.length : Nat) : Int) := by
    simp [Num.add]
  simp only [hv, hn, hs, ht, skip_eq, a0, hadd, hadd2, hadd3, hu, true_or, if_true, urlOf]


theorem removeNul_zeros (l : List Nat) (h : ∀ b ∈ l, b = 0) :
    removeNul (asciiDecode l) = [] := by
  simp only [removeNul, asciiDecode]
  rw [List.filter_eq_nil_iff]
  intro c hc
  rw [List.mem_map] at hc
  obtain ⟨b, hb, rfl⟩ := hc
  simp [h b hb, windows1252]

theorem readNextFile_normal (scope : Scope) (pre rest : List Nat) (r : TarRecord)
    (g : Option PaxHeader) (fuel : Nat) (hr : IsNormalRecord r) :
    Untar._readNextFile scope (pre ++ (r.bytes ++ rest)) (fuel + 1)
        ⟨g, some (pre.length : Int)⟩ =
      .ok (applyOptional g (fileOf (asciiDecode r.name)
          (some ((pre.length + 512 : Nat) : Int)) (some (r.data.length : Int))
          (urlOf scope r.data)),
        ⟨g, some ((pre.length + 512 + r.data.length + padLength r.data.length : Nat) : Int)⟩) := by
  obtain ⟨⟨hh, _⟩, hz⟩ := hr
  have hb : pre ++ (r.bytes ++ rest) = pre ++ (r.header ++ (r.data ++ (r.padding ++ rest))) := by
    simp [TarRecord.bytes, List.append_assoc]
  rw [hb, Untar._readNextFile, readRecord_normal scope pre r.header r.data _ r.name g hh]
  simp only [Record.toFile, Record.mergedName, substr_asciiDecode, removeNul_zeros _ hz,
    List.length_nil, gt_iff_lt, lt_self_iff_false, and_false, if_false]
  rfl

theorem foldl_word_ne_zero (bs : List Nat) (a : Nat) (ha : a ≠ 0) :
    bs.foldl (fun acc b => acc * 256 + b) a ≠ 0 := by
  induction bs generalizing a with
  | nil => simpa using ha
  | cons b bs ih =>
    simp only [List.foldl_cons]
    apply ih
    omega

theorem hasNext_header (pre hd rest name : List Nat) (size type : Nat)
    (g : Option PaxHeader) (hh : IsHeader hd name size type) :
    Untar._hasNext (pre ++ (hd ++ rest)) ⟨g, some (pre.length : Int)⟩ = .ok true := by
  obtain ⟨hlen, hne, hnl, h0, hname, _, _⟩ := hh
  have h4 : hd = hd.take 4 ++ hd.drop 4 := (List.take_append_drop 4 hd).symm
  have hv : view (pre ++ (hd ++ rest)) (some (pre.length : Int)) (some 4) = .ok (hd.take 4) := by
    have := view_mid pre (hd.take 4) (hd.drop 4 ++ rest) pre.length 4 rfl (by simp [hlen])
    rw [← List.append_assoc (hd.take 4), ← h4] at this
    exact this
  obtain ⟨c, cs, hc⟩ := List.exists_cons_of_ne_nil hne
  have hc0 : c ≠ 0 := by
    intro h; apply h0; rw [hc, h]; simp
  have ht : hd.take 4 = c :: (hd.take 4).tail := by
    have : hd.take 4 = (hd.take 100).take 4 := by simp [List.take_take]
    rw [this, hname, hc]
    simp
  have hw : (hd.take 4).foldl (fun acc b => acc * 256 + b) 0 ≠ 0 := by
    rw [ht, List.foldl_cons]
    apply foldl_word_ne_zero
    omega
  unfold Untar._hasNext
  have hlt : Num.lt (Num.add (some (pre.length : Int)) (some 4))
      (some ((pre ++ (hd ++ rest)).length : Int)) = true := by
    simp [Num.lt, Num.add, hlen]
    omega
  simp only [hlt, if_true, getUint32, hv]
  simp [hw]


theorem bytes_length (r : TarRecord) (t : Nat) (hr : IsRecord r t) :
    r.bytes.length = 512 + r.data.length + padLength r.data.length := by
  obtain ⟨⟨hlen, _⟩, hp⟩ := hr
  simp [TarRecord.bytes, hlen, hp]
  omega

theorem untarLoop_normal (scope : Scope) (pf : Option JSString) (depth : Nat)
    (rs : List TarRecord) :
    ∀ (pre post : List Nat) (g : Option PaxHeader) (files : List File) (fuel : Nat),
      (∀ r ∈ rs, IsNormalRecord r) →
      Untar.untarLoop scope (pre ++ (archive rs ++ post)) pf (depth + 1)
          (fuel + rs.length) ⟨g, some (pre.length : Int)⟩ files =
        Untar.untarLoop scope (pre ++ (archive rs ++ post)) pf (depth + 1) fuel
          ⟨g, some ((pre.length + (archive rs).length : Nat) : Int)⟩
          (files ++ entriesFrom scope g pf pre.length rs) := by
  induction rs with
  | nil =>
    intro pre post g files fuel _
    simp [archive, entriesFrom]
  | cons r rs ih =>
    intro pre post g files fuel hall
    have hr : IsNormalRecord r := hall r (List.mem_cons_self _ _)
    have hrs : ∀ x ∈ rs, IsNormalRecord x := fun x hx => hall x (List.mem_cons_of_mem _ hx)
    have hlen := bytes_length r 48 hr.1
    have hb : pre ++ (archive (r :: rs) ++ post) = pre ++ (r.bytes ++ (archive rs ++ post)) := by
      simp [archive, List.append_assoc]
    have hb2 : pre ++ (r.bytes ++ (archive rs ++ post)) =
        pre ++ (r.header ++ ((r.data ++ r.padding) ++ (archive rs ++ post))) := by
      simp [TarRecord.bytes, List.append_assoc]
    have hb3 : pre ++ (r.bytes ++ (archive rs ++ post)) =
        (pre ++ r.bytes) ++ (archive rs ++ post) := by
      simp [List.append_assoc]
    have hn : Untar._hasNext (pre ++ (r.bytes ++ (archive rs ++ post)))
        ⟨g, some (pre.length : Int)⟩ = .ok true := by
      rw [hb2]
      exact hasNext_header pre r.header _ r.name r.data.length 48 g hr.1.1
    have hf : fuel + (r :: rs).length = (fuel + rs.length) + 1 := by
      simp [Nat.add_assoc]
    rw [hb, hf, Untar.untarLoop, hn]
    simp only [readNextFile_normal scope pre (archive rs ++ post) r g depth hr]
    have hih := ih (pre ++ r.bytes) post g
      (files ++ [addPrefix pf (applyOptional g (fileOf (asciiDecode r.name)
          (some ((pre.length + 512 : Nat) : Int)) (some (r.data.length : Int))
          (urlOf scope r.data)))]) fuel hrs
    rw [← hb3] at hih
    have hl : (pre ++ r.bytes).length =
        pre.length + 512 + r.data.length + padLength r.data.length := by
      simp [hlen]; omega
    rw [hl] at hih
    rw [hih]
    simp only [archive, entriesFrom, List.length_append, hlen, List.append_assoc,
      List.singleton_append]
    congr 3
    omega


theorem length_le_archive (rs : List TarRecord) (h : ∀ r ∈ rs, IsNormalRecord r) :
    rs.length ≤ (archive rs).length := by
  induction rs with
  | nil => simp
  | cons r rs ih =>
    have hr := bytes_length r 48 (h r (List.mem_cons_self _ _)).1
    have := ih (fun x hx => h x (List.mem_cons_of_mem _ hx))
    simp only [archive, List.length_append, List.length_cons, hr]
    omega

theorem entriesFrom_length (scope : Scope) (g : Option PaxHeader) (pf : Option JSString)
    (rs : List TarRecord) : ∀ off, (entriesFrom scope g pf off rs).length = rs.length := by
  induction rs with
  | nil => intro off; rfl
  | cons r rs ih => intro off; simp [entriesFrom, ih]

theorem entriesFrom_getElem? (scope : Scope) (g : Option PaxHeader) (pf : Option JSString)
    (rs : List TarRecord) :
    ∀ (off i : Nat) (h : i < rs.length),
      (entriesFrom scope g pf off rs)[i]? =
        some (addPrefix pf (applyOptional g (fileOf (asciiDecode rs[i].name)
          (some ((off + 512 + ((rs.take i).map
            (fun r => 512 + r.data.length + padLength r.data.length)).sum : Nat) : Int))
          (some (rs[i].data.length : Int)) (urlOf scope rs[i].data)))) := by
  induction rs with
  | nil => intro off i h; simp at h
  | cons r rs ih =>
    intro off i h
    cases i with
    | zero => simp [entriesFrom]
    | succ i =>
      have hi : i < rs.length := by simpa using h
      simp only [entriesFrom, List.getElem?_cons_succ, List.getElem_cons_succ,
        List.take_succ_cons, List.map_cons, List.sum_cons]
      rw [ih _ i hi]
      congr 6
      omega

theorem untarLoop_end (scope : Scope) (pf : Option JSString) (depth fuel : Nat)
    (pre tail : List Nat) (g : Option PaxHeader) (files : List File)
    (htail : tail = [] ∨ ∃ rest, tail = List.replicate 512 0 ++ rest) :
    Untar.untarLoop scope (pre ++ tail) pf depth (fuel + 1)
      ⟨g, some (pre.length : Int)⟩ files = .ok files := by
  have hn : Untar._hasNext (pre ++ tail) ⟨g, some (pre.length : Int)⟩ = .ok false := by
    unfold Untar._hasNext
    rcases htail with h | ⟨rest, h⟩
    · subst h
      have : Num.lt (Num.add (some (pre.length : Int)) (some 4))
          (some ((pre ++ []).length : Int)) = false := by
        simp [Num.lt, Num.add]
      rw [this]; rfl
    · subst h
      have hz : List.replicate 512 0 = List.replicate 4 0 ++ List.replicate 508 0 := by
        rw [← List.replicate_add]
      have hv : view (pre ++ (List.replicate 512 0 ++ rest)) (some (pre.length : Int)) (some 4)
          = .ok (List.replicate 4 0) := by
        have := view_mid pre (List.replicate 4 0) (List.replicate 508 0 ++ rest) pre.length 4
          rfl (by simp)
        rw [← List.append_assoc (List.replicate 4 0), ← hz] at this
        exact this
      simp only [getUint32, hv]
      split <;> rfl
  rw [Untar.untarLoop, hn]


/-- Claim C1: for an archive made of `N` normal records (type flag `'0'`, a
non-empty NUL-padded name, a size field that reads as the length of the data,
no ustar name prefix, data padded to a multiple of 512), ended by the end of
the buffer or by an all-zero block, `untar()` returns exactly `N` descriptors,
the `i`-th having the name and size of the `i`-th record and `start` equal to
`512` plus the sum over `j < i` of `512 + s_j + (512 - s_j mod 512) mod 512`. -/
theorem untar_normal_records (scope : Scope) (rs : List TarRecord) (tail : List Nat)
    (hrs : ∀ r ∈ rs, IsNormalRecord r)
    (htail : tail = [] ∨ ∃ rest, tail = List.replicate 512 0 ++ rest) :
    ∃ files, Untar.untar scope (archive rs ++ tail) none = .ok files ∧
      files.length = rs.length ∧
      ∀ (i : Nat) (h : i < rs.length),
        files[i]? = some (fileOf (asciiDecode rs[i].name)
          (some ((512 + ((rs.take i).map
            (fun r => 512 + r.data.length + (512 - r.data.length % 512) % 512)).sum : Nat) : Int))
          (some (rs[i].data.length : Int)) (urlOf scope rs[i].data)) := by
  refine ⟨entriesFrom scope none none 0 rs, ?_, entriesFrom_length scope none none rs 0, ?_⟩
  · have hle := length_le_archive rs hrs
    have hfuel : (archive rs ++ tail).length + 1 =
        ((archive rs ++ tail).length - rs.length + 1) + rs.length := by
      simp only [List.length_append]; omega
    have h1 := untarLoop_normal scope none (archive rs ++ tail).length rs [] tail none []
      ((archive rs ++ tail).length - rs.length + 1) hrs
    have h2 := untarLoop_end scope none ((archive rs ++ tail).length + 1)
      ((archive rs ++ tail).length - rs.length) (archive rs) tail none
      (entriesFrom scope none none 0 rs) htail
    simp only [List.nil_append, List.length_nil, Nat.zero_add] at h1
    have hnew : Untar.new = ⟨none, some ((0 : Nat) : Int)⟩ := rfl
    have hgen : ∀ m, m = ((archive rs ++ tail).length - rs.length + 1) + rs.length →
        Untar.untarLoop scope (archive rs ++ tail) none ((archive rs ++ tail).length + 1) m
          Untar.new [] = .ok (entriesFrom scope none none 0 rs) := by
      intro m hm
      rw [hm, hnew, h1, h2]
    exact hgen _ hfuel
  · intro i h
    have := entriesFrom_getElem? scope none none rs 0 i h
    simpa [addPrefix, applyOptional, padLength] using this

theorem untar_normal_records_witness :
    (∀ r ∈ [mkRecord (asc "a.txt") 48 (asc "hello"), mkRecord (asc "b.txt") 48 (asc "wo")],
        IsNormalRecord r) ∧
    ∃ files, Untar.untar workerScope
        (archive [mkRecord (asc "a.txt") 48 (asc "hello"), mkRecord (asc "b.txt") 48 (asc "wo")]
          ++ []) none = .ok files ∧
      files.length = 2 ∧
      files[1]? = some (fileOf (asc "b.txt") (some 1536) (some 2) .null) := by
  have hrs : ∀ r ∈ [mkRecord (asc "a.txt") 48 (asc "hello"), mkRecord (asc "b.txt") 48 (asc "wo")],
      IsNormalRecord r := by decide!
  refine ⟨hrs, ?_⟩
  obtain ⟨files, h1, h2, h3⟩ := untar_normal_records workerScope _ [] hrs (Or.inl rfl)
  refine ⟨files, h1, h2, ?_⟩
  have := h3 1 (by decide)
  rw [this]
  decide!

/-! ## Headers applied to a file descriptor -/

theorem get_put (file : File) (key key2 : JSString) (value : Value) :
    (File.put file key value).get key2 =
      if key = key2 then some value else file.get key2 := by
  induction file with
  | nil => simp [File.put, File.get]
  | cons p rest ih =>
    obtain ⟨k, v⟩ := p
    by_cases hk : k = key
    · subst hk
      by_cases h2 : k = key2
      · simp [File.put, File.get, h2]
      · simp [File.put, File.get, h2]
    · by_cases h2 : k = key2
      · subst h2
        simp [File.put, File.get, hk, Ne.symm hk]
      · simp [File.put, File.get, hk, h2, ih]

theorem get_delete (file : File) (key key2 : JSString) :
    (File.delete file key).get key2 =
      if key = key2 then none else file.get key2 := by
  induction file with
  | nil => simp [File.delete, File.get]
  | cons p rest ih =>
    obtain ⟨k, v⟩ := p
    unfold File.delete at ih ⊢
    by_cases hk : k = key
    · subst hk
      by_cases h2 : k = key2
      · subst h2; simpa [File.get] using ih
      · simpa [File.get, h2] using ih
    · have hne : (k != key) = true := by simpa using hk
      rw [List.filter_cons_of_pos (by simpa using hk)]
      by_cases h2 : k = key2
      · subst h2
        simp [File.get, Ne.symm hk]
      · simp only [File.get, h2, if_false]
        exact ih

theorem get_applyField (file : File) (field : PaxField) (key : JSString)
    (hkey : key ≠ asc "__proto__") :
    (applyField file field).get key =
      if field.attribute = key then field.value.map Value.str else file.get key := by
  unfold applyField
  cases hv : field.value with
  | none => simp [get_delete]
  | some v =>
    simp only [File.assign, Option.map_some']
    by_cases ha : field.attribute = asc "__proto__"
    · have hne : ¬ asc "__proto__" = key := Ne.symm hkey
      simp [ha, hne]
    · simp [ha, get_put]

theorem get_applyHeader (header : PaxHeader) (file : File) (key : JSString)
    (hkey : key ≠ asc "__proto__") :
    (header.applyHeader file).get key =
      match lastFieldFor header key with
      | some field => field.value.map Value.str
      | none => file.get key := by
  obtain ⟨fields⟩ := header
  unfold PaxHeader.applyHeader lastFieldFor
  simp only
  induction fields using List.reverseRecOn with
  | nil => simp
  | append_singleton fs f ih =>
    rw [List.foldl_append, List.foldl_cons, List.foldl_nil, get_applyField _ _ _ hkey,
      List.filter_append]
    by_cases ha : f.attribute = key
    · simp [ha]
    · simp [ha, ih]

/-- Claim C2, evaluated on the example of the specification: an `'x'` record
whose data is the field `path=renamed.txt` (which `PaxHeader.parse` reads as
that field), followed by the normal record `orig.txt`.  `untar()` returns the
entry named `orig.txt`: the local header is not applied. -/
theorem local_path_header_not_applied :
    PaxHeader.parse
        (archive [mkRecord (asc "PaxHeader") 120 (asc "20 path=renamed.txt\n"),
          mkRecord (asc "orig.txt") 48 (asc "hi")]) (some 512) (some 20) =
      .ok ⟨[⟨asc "path", some (asc "renamed.txt")⟩]⟩ ∧
    Untar.untar directScope
        (archive [mkRecord (asc "PaxHeader") 120 (asc "20 path=renamed.txt\n"),
          mkRecord (asc "orig.txt") 48 (asc "hi")]) none =
      .ok [fileOf (asc "orig.txt") (some 1536) (some 2) (.str (asc "blob:"))] := by
  decide!

/-- Claim C3, evaluated on a `'g'` record `name=G.txt`, an `'x'` record
`name=L.txt` and two normal records: `untar()` returns two entries that are
both named `G.txt`; the local header `name=L.txt` is applied to neither. -/
theorem local_name_header_not_applied :
    Untar.untar directScope
        (archive [mkRecord (asc "pax_global_header") 103 (asc "14 name=G.txt\n"),
          mkRecord (asc "PaxHeader") 120 (asc "14 name=L.txt\n"),
          mkRecord (asc "one.txt") 48 (asc "hi"),
          mkRecord (asc "two.txt") 48 (asc "ho")]) none =
      .ok [fileOf (asc "G.txt") (some 2560) (some 2) (.str (asc "blob:")),
           fileOf (asc "G.txt") (some 3584) (some 2) (.str (asc "blob:"))] := by
  decide!

/-- Claim C4, evaluated on the header with the single field `__proto__=x`
(what `PaxHeader.parse` makes of the record `15 __proto__=x`): `applyHeader`
leaves the descriptor as it was, and the descriptor has no attribute
`__proto__` afterwards.  (For every other key `get_applyHeader` gives what the
claim says.) -/
theorem applyHeader_proto_ignored :
    PaxHeader.parse (asc "15 __proto__=x\n") (some 0) (some 15) =
      .ok ⟨[⟨asc "__proto__", some (asc "x")⟩]⟩ ∧
    PaxHeader.applyHeader ⟨[⟨asc "__proto__", some (asc "x")⟩]⟩
        (fileOf (asc "a.txt") (some 512) (some 5) .null) =
      fileOf (asc "a.txt") (some 512) (some 5) .null ∧
    (PaxHeader.applyHeader ⟨[⟨asc "__proto__", some (asc "x")⟩]⟩
        (fileOf (asc "a.txt") (some 512) (some 5) .null)).get (asc "__proto__") = none := by
  decide!

/-! ## One record -/

theorem next_eq (c s : Int) (h0 : 0 ≤ s) :
    Num.add (Num.add (Num.add (some c) (some 512)) (some s))
        (if Num.rem (some s) (some 512) != some 0
          then Num.sub (some 512) (Num.rem (some s) (some 512)) else some 0) =
      some (c + 512 + s + (512 - s % 512) % 512) := by
  have hr : Num.rem (some s) (some 512) = some (s % 512) := by
    simp only [Num.rem]
    rw [if_neg (by norm_num), Int.tmod_eq_emod h0 (by norm_num)]
  rw [hr]
  by_cases h : s % 512 = 0
  · simp [h, Num.add]
  · have h2 : (some (s % 512) != some (0 : Int)) = true := by simpa using h
    rw [if_pos h2]
    simp only [Num.add, Num.sub, Option.some.injEq]
    have h3 : 0 ≤ s % 512 := Int.emod_nonneg _ (by norm_num)
    have h4 : s % 512 < 512 := Int.emod_lt_of_pos _ (by norm_num)
    have h5 : (512 - s % 512) % 512 = 512 - s % 512 :=
      Int.emod_eq_of_lt (by omega) (by omega)
    rw [h5]

/-- Claim C6: when the size field of the header at the cursor `c` reads as an
integer `s ≥ 0`, every run of lines 111 to 156 on that record that completes
leaves the cursor at `c + 512 + s + (512 - s mod 512) mod 512`; the run
completes for every type flag other than `'g'` and `'x'` (for which
`PaxHeader.parse` may throw); and from a cursor that is a multiple of 512 the
new cursor is the first multiple of 512 at or after the end of the data. -/
theorem readRecord_advances (scope : Scope) (buffer headerBytes : List Nat)
    (g : Option PaxHeader) (c s : Int)
    (hv : view buffer (some c) (some 512) = .ok headerBytes)
    (hs : parseInt (substr (asciiDecode headerBytes) 124 12) 8 = some s) (h0 : 0 ≤ s) :
    (∀ r, Untar.readRecord scope buffer ⟨g, some c⟩ = .ok r →
      r.size = some s ∧
      r.self.bytesRead = some (c + (512 + s + (512 - s % 512) % 512))) ∧
    (substr (asciiDecode headerBytes) 156 1 ≠ asc "g" →
      substr (asciiDecode headerBytes) 156 1 ≠ asc "x" →
      ∃ r, Untar.readRecord scope buffer ⟨g, some c⟩ = .ok r) ∧
    (c % 512 = 0 →
      (c + (512 + s + (512 - s % 512) % 512)) % 512 = 0 ∧
      c + 512 + s ≤ c + (512 + s + (512 - s % 512) % 512) ∧
      c + (512 + s + (512 - s % 512) % 512) < c + 512 + s + 512) := by
  have hn := next_eq c s h0
  have hn2 : c + 512 + s + (512 - s % 512) % 512 = c + (512 + s + (512 - s % 512) % 512) := by
    ring
  rw [hn2] at hn
  refine ⟨?_, ?_, ?_⟩
  · intro r h
    unfold Untar.readRecord at h
    simp only [hv, hs, hn] at h
    split at h
    · cases h; exact ⟨rfl, rfl⟩
    · split at h
      · split at h
        · cases h
        · cases h; exact ⟨rfl, rfl⟩
      · split at h
        · split at h
          · cases h
          · cases h; exact ⟨rfl, rfl⟩
        · cases h; exact ⟨rfl, rfl⟩
  · intro hg hx
    unfold Untar.readRecord
    simp only [hv, hs, hn, hg, hx, if_false]
    split <;> exact ⟨_, rfl⟩
  · intro hc
    omega

theorem readRecord_advances_witness :
    (Untar.readRecord directScope
        (archive [mkRecord (asc "a.txt") 48 (List.replicate 513 7)]) ⟨none, some 0⟩).map
      (fun r => (r.size, r.self.bytesRead)) = .ok (some 513, some 1536) := by
  have hv : view (archive [mkRecord (asc "a.txt") 48 (List.replicate 513 7)]) (some 0) (some 512)
      = .ok (mkHeader (asc "a.txt") 513 48) := by decide!
  have hs : parseInt (substr (asciiDecode (mkHeader (asc "a.txt") 513 48)) 124 12) 8 = some 513 := by
    decide!
  have h := readRecord_advances directScope _ _ none 0 513 hv hs (by decide)
  obtain ⟨r, hr⟩ := h.2.1 (by decide!) (by decide!)
  obtain ⟨h1, h2⟩ := h.1 r hr
  rw [hr]
  simp only [Except.map, h1, h2]
  rfl

/-! ## The file name prefix -/

theorem addPrefix_none (file : File) : addPrefix none file = file := rfl

theorem addPrefix_empty (file : File) : addPrefix (some []) file = file := by
  simp [addPrefix]

theorem name_ne_proto : asc "name" ≠ asc "__proto__" := by decide

theorem get_addPrefix_of_ne (pf : Option JSString) (file : File) (key : JSString)
    (hk : key ≠ asc "name") : (addPrefix pf file).get key = file.get key := by
  unfold addPrefix
  cases pf with
  | none => rfl
  | some p =>
    simp only
    split
    · rw [File.assign, if_neg name_ne_proto, get_put, if_neg (Ne.symm hk)]
    · rfl

theorem get_addPrefix_name (p n : JSString) (file : File) (hp : p ≠ []) (hn : n ≠ [])
    (h : file.get (asc "name") = some (.str n)) :
    (addPrefix (some p) file).get (asc "name") = some (.str (p ++ n)) := by
  unfold addPrefix
  have h1 : (!p.isEmpty && truthy (file.get (asc "name"))) = true := by
    rw [h]
    simp [truthy, hp, hn, List.isEmpty_iff]
  simp only [h1, if_true]
  rw [File.assign, if_neg name_ne_proto, get_put, if_pos rfl, h]
  rfl

theorem addPrefix_of_no_name (p : JSString) (file : File)
    (h : file.get (asc "name") = none ∨ file.get (asc "name") = some (.str [])) :
    addPrefix (some p) file = file := by
  unfold addPrefix
  rcases h with h | h <;> simp [h, truthy]

theorem untarLoop_with_prefix_eq (scope : Scope) (buffer : List Nat) (pf : Option JSString)
    (depth : Nat) :
    ∀ (fuel : Nat) (self : Untar) (files : List File),
      Untar.untarLoop scope buffer pf depth fuel self (files.map (addPrefix pf)) =
        (Untar.untarLoop scope buffer none depth fuel self files).map
          (List.map (addPrefix pf)) := by
  intro fuel
  induction fuel with
  | zero => intro self files; rfl
  | succ fuel ih =>
    intro self files
    rw [Untar.untarLoop, Untar.untarLoop]
    cases hn : Untar._hasNext buffer self with
    | error e => rfl
    | ok b =>
      cases b with
      | false => rfl
      | true =>
        simp only
        cases hr : Untar._readNextFile scope buffer depth self with
        | error e => rfl
        | ok p =>
          obtain ⟨file, self2⟩ := p
          simp only [addPrefix_none]
          rw [← ih self2 (files ++ [file])]
          simp


/-! ## What a header can do to an attribute -/

theorem get_assign_str (file : File) (key key2 : JSString) (v : JSString) :
    (File.assign file key (.str v)).get key2 = file.get key2 ∨
      (File.assign file key (.str v)).get key2 = some (.str v) := by
  unfold File.assign
  split
  · exact Or.inl rfl
  · rw [get_put]
    split
    · exact Or.inr rfl
    · exact Or.inl rfl

theorem get_applyField_cases (file : File) (field : PaxField) (key : JSString) :
    (applyField file field).get key = file.get key ∨
      (applyField file field).get key = none ∨
      ∃ s, (applyField file field).get key = some (.str s) := by
  unfold applyField
  cases field.value with
  | none =>
    simp only [get_delete]
    split
    · exact Or.inr (Or.inl rfl)
    · exact Or.inl rfl
  | some v =>
    rcases get_assign_str file field.attribute key v with h | h
    · exact Or.inl h
    · exact Or.inr (Or.inr ⟨v, h⟩)

theorem get_foldl_applyField_cases (fields : List PaxField) :
    ∀ (file : File) (key : JSString),
      (fields.foldl applyField file).get key = file.get key ∨
        (fields.foldl applyField file).get key = none ∨
        ∃ s, (fields.foldl applyField file).get key = some (.str s) := by
  induction fields with
  | nil => intro file key; exact Or.inl rfl
  | cons f fs ih =>
    intro file key
    rw [List.foldl_cons]
    rcases ih (applyField file f) key with h | h | h
    · rw [h]; exact get_applyField_cases file f key
    · exact Or.inr (Or.inl h)
    · exact Or.inr (Or.inr h)

theorem get_applyOptional_cases (header : Option PaxHeader) (file : File) (key : JSString) :
    (applyOptional header file).get key = file.get key ∨
      (applyOptional header file).get key = none ∨
      ∃ s, (applyOptional header file).get key = some (.str s) := by
  cases header with
  | none => exact Or.inl rfl
  | some h => exact get_foldl_applyField_cases h.fields file key

theorem get_toFile_cases (r : Record) (key : JSString) :
    r.toFile.get key = (fileOf r.mergedName r.start r.size r.url).get key ∨
      r.toFile.get key = none ∨ ∃ s, r.toFile.get key = some (.str s) := by
  unfold Record.toFile
  rcases get_applyOptional_cases r.paxHeader
    (applyOptional r.self.globalPaxHeader (fileOf r.mergedName r.start r.size r.url)) key
    with h | h | h
  · rw [h]
    exact get_applyOptional_cases r.self.globalPaxHeader _ key
  · exact Or.inr (Or.inl h)
  · exact Or.inr (Or.inr h)

/-! ## Where the returned descriptors come from -/

theorem readNextFile_from_record (scope : Scope) (buffer : List Nat) :
    ∀ (fuel : Nat) (self self2 : Untar) (file : File),
      Untar._readNextFile scope buffer fuel self = .ok (file, self2) →
      ∃ r self0, Untar.readRecord scope buffer self0 = .ok r ∧
        r.moveToNextFile = false ∧ file = r.toFile ∧ self2 = r.self := by
  intro fuel
  induction fuel with
  | zero => intro self self2 file h; cases h
  | succ fuel ih =>
    intro self self2 file h
    rw [Untar._readNextFile] at h
    cases hr : Untar.readRecord scope buffer self with
    | error e => rw [hr] at h; cases h
    | ok r =>
      rw [hr] at h
      simp only at h
      by_cases hm : r.moveToNextFile = true
      · rw [if_pos hm] at h
        exact ih _ _ _ h
      · rw [if_neg hm] at h
        cases h
        exact ⟨r, self, hr, by simpa using hm, rfl, rfl⟩

theorem untarLoop_from_record (scope : Scope) (buffer : List Nat) (pf : Option JSString)
    (depth : Nat) :
    ∀ (fuel : Nat) (self : Untar) (files out : List File),
      Untar.untarLoop scope buffer pf depth fuel self files = .ok out →
      ∀ f ∈ out, f ∈ files ∨
        ∃ r self0, Untar.readRecord scope buffer self0 = .ok r ∧
          r.moveToNextFile = false ∧ f = addPrefix pf r.toFile := by
  intro fuel
  induction fuel with
  | zero => intro self files out h; cases h
  | succ fuel ih =>
    intro self files out h f hf
    rw [Untar.untarLoop] at h
    cases hn : Untar._hasNext buffer self with
    | error e => rw [hn] at h; cases h
    | ok b =>
      rw [hn] at h
      cases b with
      | false => cases h; exact Or.inl hf
      | true =>
        simp only at h
        cases hr : Untar._readNextFile scope buffer depth self with
        | error e => rw [hr] at h; cases h
        | ok p =>
          obtain ⟨file, self2⟩ := p
          rw [hr] at h
          simp only at h
          rcases ih self2 _ out h f hf with h1 | h1
          · rw [List.mem_append] at h1
            rcases h1 with h1 | h1
            · exact Or.inl h1
            · obtain ⟨r, self0, h2, h3, h4, _⟩ :=
                readNextFile_from_record scope buffer depth self self2 file hr
              refine Or.inr ⟨r, self0, h2, h3, ?_⟩
              rw [List.mem_singleton] at h1
              rw [h1, h4]
          · exact Or.inr h1

theorem untar_from_record (scope : Scope) (buffer : List Nat) (pf : Option JSString)
    (out : List File) (h : Untar.untar scope buffer pf = .ok out) :
    ∀ f ∈ out, ∃ r self0, Untar.readRecord scope buffer self0 = .ok r ∧
      r.moveToNextFile = false ∧ f = addPrefix pf r.toFile := by
  intro f hf
  rcases untarLoop_from_record scope buffer pf _ _ _ [] out h f hf with h1 | h1
  · cases h1
  · exact h1


theorem readRecord_start (scope : Scope) (buffer : List Nat) (self : Untar) (r : Record)
    (h : Untar.readRecord scope buffer self = .ok r) :
    r.start = none ∨ ∃ s : Int, r.start = some s ∧ 512 ≤ s ∧ s ≤ buffer.length := by
  unfold Untar.readRecord at h
  cases hv : view buffer self.bytesRead (some 512) with
  | error e => rw [hv] at h; cases h
  | ok hb =>
    rw [hv] at h
    have hstart : r.start = Num.add self.bytesRead (some 512) := by
      simp only at h
      split at h
      · cases h; rfl
      · split at h
        · split at h
          · cases h
          · cases h; rfl
        · split at h
          · split at h
            · cases h
            · cases h; rfl
          · cases h; rfl
    rw [hstart]
    cases hc : self.bytesRead with
    | none => exact Or.inl rfl
    | some c =>
      right
      refine ⟨c + 512, rfl, ?_⟩
      rw [hc] at hv
      unfold view toIndex at hv
      by_cases hneg : c < 0
      · simp [hneg] at hv
      · simp only [hneg, if_false] at hv
        have h512 : ¬ ((512 : Int) < 0) := by norm_num
        simp only [h512, if_false] at hv
        split at hv
        · rename_i hle
          have : (512 : Int).toNat = 512 := rfl
          rw [this] at hle
          omega
        · cases hv

/-- Claim C7: `untar(p)` is `untar()` with `addPrefix p` applied to every
descriptor (and fails when `untar()` fails).  Every name `untar()` returns is
absent or a string; `addPrefix` with no prefix or the empty prefix changes
nothing; with a non-empty prefix `p` it turns a non-empty name `n` into
`p + n`, leaves a descriptor with an empty or absent name as it is, and never
changes another attribute (`start`, `size`, `url`). -/
theorem untar_with_prefix_eq (scope : Scope) (buffer : List Nat) (pf : Option JSString) :
    Untar.untar scope buffer pf =
      (Untar.untar scope buffer none).map (List.map (addPrefix pf)) ∧
    ∀ files, Untar.untar scope buffer none = .ok files → ∀ f ∈ files,
      (f.get (asc "name") = none ∨ ∃ n, f.get (asc "name") = some (.str n)) ∧
      addPrefix none f = f ∧ addPrefix (some []) f = f ∧
      ∀ p, p ≠ [] →
        (∀ n, f.get (asc "name") = some (.str n) → n ≠ [] →
          (addPrefix (some p) f).get (asc "name") = some (.str (p ++ n))) ∧
        (f.get (asc "name") = none ∨ f.get (asc "name") = some (.str []) →
          addPrefix (some p) f = f) ∧
        ∀ key, key ≠ asc "name" → (addPrefix (some p) f).get key = f.get key := by
  constructor
  · have := untarLoop_with_prefix_eq scope buffer pf (buffer.length + 1) (buffer.length + 1)
      Untar.new []
    simpa [Untar.untar, Untar.untarFuel] using this
  · intro files h f hf
    obtain ⟨r, self0, _, _, hfr⟩ := untar_from_record scope buffer none files h f hf
    rw [addPrefix_none] at hfr
    refine ⟨?_, addPrefix_none f, addPrefix_empty f, ?_⟩
    · rw [hfr]
      rcases get_toFile_cases r (asc "name") with h1 | h1 | h1
      · right
        exact ⟨r.mergedName, by rw [h1]; rfl⟩
      · exact Or.inl h1
      · exact Or.inr h1
    · intro p hp
      exact ⟨fun n hn hne => get_addPrefix_name p n f hp hne hn,
        addPrefix_of_no_name p f, fun key hk => get_addPrefix_of_ne (some p) f key hk⟩

theorem untar_with_prefix_witness :
    Untar.untar directScope (archive [mkRecord (asc "a.txt") 48 (asc "hi")])
        (some (asc "assets/")) =
      .ok [fileOf (asc "assets/a.txt") (some 512) (some 2) (.str (asc "blob:"))] ∧
    Untar.untar directScope (archive [mkRecord (asc "a.txt") 48 (asc "hi")]) none =
      .ok [fileOf (asc "a.txt") (some 512) (some 2) (.str (asc "blob:"))] := by
  have h := (untar_with_prefix_eq directScope (archive [mkRecord (asc "a.txt") 48 (asc "hi")])
    (some (asc "assets/"))).1
  have h0 : Untar.untar directScope (archive [mkRecord (asc "a.txt") 48 (asc "hi")]) none =
      .ok [fileOf (asc "a.txt") (some 512) (some 2) (.str (asc "blob:"))] := by decide!
  refine ⟨?_, h0⟩
  rw [h, h0]
  decide!

/-- Claim C10 fails as stated: on a buffer of 512 bytes that holds one header
declaring 1000 bytes of data, `untar` returns the entry with `start = 512` and
`size = 1000`, and `512 + 1000 ≤ 512` is false. -/
theorem truncated_archive_returns_entry :
    (mkHeader (asc "a.txt") 1000 48).length = 512 ∧
    Untar.untar directScope (mkHeader (asc "a.txt") 1000 48) none =
      .ok [fileOf (asc "a.txt") (some 512) (some 1000) (.str (asc "blob:"))] ∧
    ¬ ((512 : Int) + 1000 ≤ 512) := by
  decide!

/-- Claim C10 as amended: whenever `untar` returns, every returned entry
whose `start` is a number has `512 ≤ start ≤ n`, `n` being the length of the
buffer. -/
theorem untar_start_in_buffer (scope : Scope) (buffer : List Nat) (pf : Option JSString)
    (files : List File) (h : Untar.untar scope buffer pf = .ok files) :
    ∀ f ∈ files, ∀ s : Int, f.get (asc "start") = some (.num (some s)) →
      512 ≤ s ∧ s ≤ buffer.length := by
  intro f hf s hs
  obtain ⟨r, self0, hr, _, hfr⟩ := untar_from_record scope buffer pf files h f hf
  have hne : asc "start" ≠ asc "name" := by decide
  rw [hfr, get_addPrefix_of_ne pf _ _ hne] at hs
  rcases get_toFile_cases r (asc "start") with h1 | h1 | h1
  · rw [h1] at hs
    have h2 : (fileOf r.mergedName r.start r.size r.url).get (asc "start") =
        some (.num r.start) := by
      simp only [fileOf, File.get]
      rw [if_neg (by decide)]
      simp
    rw [h2] at hs
    have h3 : r.start = some s := by
      injection hs with hs
      injection hs
    rcases readRecord_start scope buffer self0 r hr with h4 | ⟨s2, h4, h5⟩
    · rw [h4] at h3; cases h3
    · rw [h4] at h3
      injection h3 with h3
      rw [← h3]
      exact h5
  · rw [h1] at hs; cases hs
  · obtain ⟨x, hx⟩ := h1
    rw [hx] at hs
    cases hs

theorem untar_start_in_buffer_witness :
    Untar.untar directScope (mkHeader (asc "a.txt") 1000 48) none =
      .ok [fileOf (asc "a.txt") (some 512) (some 1000) (.str (asc "blob:"))] ∧
    (512 : Int) ≤ 512 ∧ (512 : Int) ≤ (mkHeader (asc "a.txt") 1000 48).length :=
  ⟨by decide!,
    untar_start_in_buffer directScope (mkHeader (asc "a.txt") 1000 48) none
      [fileOf (asc "a.txt") (some 512) (some 1000) (.str (asc "blob:"))] (by decide!)
      (fileOf (asc "a.txt") (some 512) (some 1000) (.str (asc "blob:")))
      (List.mem_singleton.mpr rfl) 512 (by decide!)⟩

/-! ## PAX records -/

theorem readRecord_pax (scope : Scope) (pre hd data rest name : List Nat) (t : Nat)
    (g : Option PaxHeader) (ht : t = 103 ∨ t = 120) (hh : IsHeader hd name data.length t) :
    Untar.readRecord scope (pre ++ (hd ++ (data ++ rest))) ⟨g, some (pre.length : Int)⟩ =
      match PaxHeader.parse (pre ++ (hd ++ (data ++ rest)))
          (some ((pre.length + 512 : Nat) : Int)) (some (data.length : Int)) with
      | .error e => .error e
      | .ok header =>
        .ok ⟨asciiDecode name, substr (asciiDecode hd) 257 6,
          removeNul (substr (asciiDecode hd) 345 155), some (data.length : Int), [t],
          some ((pre.length + 512 : Nat) : Int), .null,
          if t = 120 then some header else none, true,
          ⟨if t = 103 then some header else g,
            some ((pre.length + 512 + data.length + padLength data.length : Nat) : Int)⟩⟩ := by
  obtain ⟨hlen, hne, hnl, h0, hname, hsize, htype⟩ := hh
  have hv : view (pre ++ (hd ++ (data ++ rest))) (some (pre.length : Int)) (some 512) = .ok hd :=
    view_mid pre hd (data ++ rest) pre.length 512 rfl hlen.symm
  have hn : removeNul (substr (asciiDecode hd) 0 100) = asciiDecode name := by
    rw [substr_asciiDecode, List.drop_zero, hname, removeNul_name _ _ h0]
  have hs : parseInt (substr (asciiDecode hd) 124 12) 8 = some (data.length : Int) := by
    rw [substr_asciiDecode, hsize]
  have ht2 : substr (asciiDecode hd) 156 1 = [t] := by
    rw [substr_asciiDecode, htype]
    rcases ht with h | h <;> subst h <;> rfl
  have a0 : asc "0" = [48] := by decide
  have ag : asc "g" = [103] := by decide
  have ax : asc "x" = [120] := by decide
  have hadd : Num.add (some (pre.length : Int)) (some 512) = some ((pre.length + 512 : Nat) : Int) := by
    simp [Num.add]
  have hadd2 : Num.add (some ((pre.length + 512 : Nat) : Int)) (some (data.length : Int))
      = some ((pre.length + 512 + data.length : Nat) : Int) := by
    simp [Num.add]
  have hadd3 : Num.add (some ((pre.length + 512 + data.length : Nat) : Int))
      (some (padLength data.length : Int))
      = some ((pre.length + 512 + data.length + padLength data.length : Nat) : Int) := by
    simp [Num.add]
  unfold Untar.readRecord
  simp only [hv, hn, hs, ht2, skip_eq, a0, ag, ax, hadd, hadd2, hadd3]
  rcases ht with h | h <;> subst h <;> simp

theorem findSpace_none (paxArray : List Nat) (c : Nat)
    (h : ∀ b ∈ paxArray.drop c, b ≠ 32) (hc : c ≤ paxArray.length) :
    findSpace paxArray c = paxArray.length := by
  unfold findSpace
  have : (paxArray.drop c).takeWhile (fun b => b != 0x20) = paxArray.drop c := by
    rw [List.takeWhile_eq_self_iff]
    intro b hb
    simpa using h b hb
  rw [this, List.length_drop]
  omega

theorem parseLoop_no_space (buffer paxArray : List Nat) (start : Num) (fuel c : Nat)
    (fields : List PaxField) (hc : c < paxArray.length)
    (h : ∀ b ∈ paxArray.drop c, b ≠ 32) :
    PaxHeader.parseLoop buffer start paxArray (fuel + 1) c fields = .error .invalidPax := by
  rw [PaxHeader.parseLoop, if_pos hc]
  simp only [findSpace_none paxArray c h (Nat.le_of_lt hc), ge_iff_le, le_refl, if_true]

theorem parse_no_space (pre data rest : List Nat) (o : Nat) (ho : o = pre.length)
    (hne : data ≠ []) (h : 32 ∉ data) :
    PaxHeader.parse (pre ++ (data ++ rest)) (some (o : Int)) (some (data.length : Int)) =
      .error .invalidPax := by
  unfold PaxHeader.parse
  rw [view_mid pre data rest o data.length ho rfl]
  simp only
  apply parseLoop_no_space
  · exact List.length_pos.mpr hne
  · intro b hb heq
    rw [List.drop_zero] at hb
    exact h (heq ▸ hb)


theorem readNextFile_bad_pax (scope : Scope) (pre rest : List Nat) (r : TarRecord) (t : Nat)
    (g : Option PaxHeader) (fuel : Nat) (ht : t = 103 ∨ t = 120) (hr : IsRecord r t)
    (hne : r.data ≠ []) (hsp : 32 ∉ r.data) :
    Untar._readNextFile scope (pre ++ (r.bytes ++ rest)) (fuel + 1)
        ⟨g, some (pre.length : Int)⟩ = .error .invalidPax := by
  have hb : pre ++ (r.bytes ++ rest) = pre ++ (r.header ++ (r.data ++ (r.padding ++ rest))) := by
    simp [TarRecord.bytes, List.append_assoc]
  have hb2 : pre ++ (r.header ++ (r.data ++ (r.padding ++ rest))) =
      (pre ++ r.header) ++ (r.data ++ (r.padding ++ rest)) := by
    simp [List.append_assoc]
  have hp : PaxHeader.parse (pre ++ (r.header ++ (r.data ++ (r.padding ++ rest))))
      (some ((pre.length + 512 : Nat) : Int)) (some (r.data.length : Int)) =
        .error .invalidPax := by
    rw [hb2]
    exact parse_no_space (pre ++ r.header) r.data _ (pre.length + 512)
      (by simp [hr.1.1]) hne hsp
  rw [hb, Untar._readNextFile, readRecord_pax scope pre r.header r.data _ r.name t g ht hr.1, hp]

/-- Claim C8: the loop of `PaxHeader.parse` throws
`'Invalid PAX header data format.'` whenever no space byte follows the read
cursor; and an archive in which normal records are followed by a `'g'` or
`'x'` record whose non-empty data hold no space byte makes `untar` end with
that error, so that the entries of the records before it are not returned. -/
theorem untar_malformed_pax (scope : Scope) (pf : Option JSString) (rs : List TarRecord)
    (r : TarRecord) (rest : List Nat) (t : Nat)
    (hrs : ∀ x ∈ rs, IsNormalRecord x) (ht : t = 103 ∨ t = 120) (hr : IsRecord r t)
    (hne : r.data ≠ []) (hsp : 32 ∉ r.data) :
    (∀ (buffer paxArray : List Nat) (start : Num) (fuel c : Nat) (fields : List PaxField),
      c < paxArray.length → (∀ b ∈ paxArray.drop c, b ≠ 32) →
      PaxHeader.parseLoop buffer start paxArray (fuel + 1) c fields = .error .invalidPax) ∧
    Untar.untar scope (archive rs ++ (r.bytes ++ rest)) pf = .error .invalidPax := by
  refine ⟨fun buffer paxArray start fuel c fields hc h =>
    parseLoop_no_space buffer paxArray start fuel c fields hc h, ?_⟩
  have hle := length_le_archive rs hrs
  have hfuel : (archive rs ++ (r.bytes ++ rest)).length + 1 =
      ((archive rs ++ (r.bytes ++ rest)).length - rs.length + 1) + rs.length := by
    simp only [List.length_append]; omega
  have h1 := untarLoop_normal scope pf (archive rs ++ (r.bytes ++ rest)).length rs []
    (r.bytes ++ rest) none [] ((archive rs ++ (r.bytes ++ rest)).length - rs.length + 1) hrs
  simp only [List.nil_append, List.length_nil, Nat.zero_add] at h1
  have hn : Untar._hasNext (archive rs ++ (r.bytes ++ rest))
      ⟨none, some ((archive rs).length : Int)⟩ = .ok true := by
    have hb : archive rs ++ (r.bytes ++ rest) =
        archive rs ++ (r.header ++ ((r.data ++ r.padding) ++ rest)) := by
      simp [TarRecord.bytes, List.append_assoc]
    rw [hb]
    exact hasNext_header (archive rs) r.header _ r.name r.data.length t none hr.1
  have h2 : Untar.untarLoop scope (archive rs ++ (r.bytes ++ rest)) pf
      ((archive rs ++ (r.bytes ++ rest)).length + 1)
      ((archive rs ++ (r.bytes ++ rest)).length - rs.length + 1)
      ⟨none, some ((archive rs).length : Int)⟩ (entriesFrom scope none pf 0 rs) =
        .error .invalidPax := by
    rw [Untar.untarLoop, hn]
    simp only [readNextFile_bad_pax scope (archive rs) rest r t none _ ht hr hne hsp]
  have hnew : Untar.new = ⟨none, some ((0 : Nat) : Int)⟩ := rfl
  have hgen : ∀ m, m = ((archive rs ++ (r.bytes ++ rest)).length - rs.length + 1) + rs.length →
      Untar.untarLoop scope (archive rs ++ (r.bytes ++ rest)) pf
        ((archive rs ++ (r.bytes ++ rest)).length + 1) m Untar.new [] =
          .error .invalidPax := by
    intro m hm
    rw [hm, hnew, h1, h2]
  exact hgen _ hfuel

theorem untar_malformed_pax_witness :
    Untar.untar directScope
      (archive [mkRecord (asc "a.txt") 48 (asc "hello")] ++
        ((mkRecord (asc "PaxHeader") 120 (asc "20path=renamed.txt\n")).bytes ++
          (mkRecord (asc "b.txt") 48 (asc "wo")).bytes)) none = .error .invalidPax :=
  (untar_malformed_pax directScope none [mkRecord (asc "a.txt") 48 (asc "hello")]
    (mkRecord (asc "PaxHeader") 120 (asc "20path=renamed.txt\n"))
    (mkRecord (asc "b.txt") 48 (asc "wo")).bytes 120
    (by decide!) (Or.inr rfl) (by decide!) (by decide!) (by decide!)).2


theorem readNextFile_global (scope : Scope) (pre rest : List Nat) (gr r : TarRecord)
    (g0 : Option PaxHeader) (header : PaxHeader) (fuel : Nat)
    (hg : IsRecord gr 103) (hr : IsNormalRecord r)
    (hp : PaxHeader.parse (pre ++ (gr.bytes ++ (r.bytes ++ rest)))
      (some ((pre.length + 512 : Nat) : Int)) (some (gr.data.length : Int)) = .ok header) :
    Untar._readNextFile scope (pre ++ (gr.bytes ++ (r.bytes ++ rest))) (fuel + 2)
        ⟨g0, some (pre.length : Int)⟩ =
      .ok (applyOptional (some header) (fileOf (asciiDecode r.name)
          (some ((pre.length + gr.bytes.length + 512 : Nat) : Int))
          (some (r.data.length : Int)) (urlOf scope r.data)),
        ⟨some header, some ((pre.length + gr.bytes.length + 512 + r.data.length +
          padLength r.data.length : Nat) : Int)⟩) := by
  have hlen := bytes_length gr 103 hg
  have hb : pre ++ (gr.bytes ++ (r.bytes ++ rest)) =
      pre ++ (gr.header ++ (gr.data ++ (gr.padding ++ (r.bytes ++ rest)))) := by
    simp [TarRecord.bytes, List.append_assoc]
  have hb2 : pre ++ (gr.bytes ++ (r.bytes ++ rest)) = (pre ++ gr.bytes) ++ (r.bytes ++ rest) := by
    simp [List.append_assoc]
  have h1 := readRecord_pax scope pre gr.header gr.data (gr.padding ++ (r.bytes ++ rest))
    gr.name 103 g0 (Or.inl rfl) hg.1
  rw [← hb, hp] at h1
  have h2 := readNextFile_normal scope (pre ++ gr.bytes) rest r (some header) fuel hr
  rw [← hb2] at h2
  have hl : (pre ++ gr.bytes).length = pre.length + gr.bytes.length := by simp
  rw [hl] at h2
  rw [Untar._readNextFile, h1]
  simp only [if_true]
  have hc : pre.length + 512 + gr.data.length + padLength gr.data.length =
      pre.length + gr.bytes.length := by
    rw [hlen]; omega
  rw [hc]
  exact h2

theorem untarLoop_global (scope : Scope) (pf : Option JSString) (depth fuel : Nat)
    (pre post : List Nat) (gr r : TarRecord) (rs : List TarRecord)
    (g0 : Option PaxHeader) (header : PaxHeader) (files : List File)
    (hg : IsRecord gr 103) (hrs : ∀ x ∈ r :: rs, IsNormalRecord x)
    (hp : PaxHeader.parse (pre ++ (archive (gr :: r :: rs) ++ post))
      (some ((pre.length + 512 : Nat) : Int)) (some (gr.data.length : Int)) = .ok header) :
    Untar.untarLoop scope (pre ++ (archive (gr :: r :: rs) ++ post)) pf (depth + 2)
        (fuel + (r :: rs).length) ⟨g0, some (pre.length : Int)⟩ files =
      Untar.untarLoop scope (pre ++ (archive (gr :: r :: rs) ++ post)) pf (depth + 2) fuel
        ⟨some header, some ((pre.length + (archive (gr :: r :: rs)).length : Nat) : Int)⟩
        (files ++ entriesFrom scope (some header) pf (pre.length + gr.bytes.length)
          (r :: rs)) := by
  have hr : IsNormalRecord r := hrs r (List.mem_cons_self _ _)
  have hrs2 : ∀ x ∈ rs, IsNormalRecord x := fun x hx => hrs x (List.mem_cons_of_mem _ hx)
  have hlen := bytes_length r 48 hr.1
  have hb : pre ++ (archive (gr :: r :: rs) ++ post) =
      pre ++ (gr.bytes ++ (r.bytes ++ (archive rs ++ post))) := by
    simp [archive, List.append_assoc]
  have hb2 : pre ++ (gr.bytes ++ (r.bytes ++ (archive rs ++ post))) =
      pre ++ (gr.header ++ ((gr.data ++ gr.padding) ++ (r.bytes ++ (archive rs ++ post)))) := by
    simp [TarRecord.bytes, List.append_assoc]
  have hb3 : pre ++ (gr.bytes ++ (r.bytes ++ (archive rs ++ post))) =
      (pre ++ gr.bytes ++ r.bytes) ++ (archive rs ++ post) := by
    simp [List.append_assoc]
  rw [hb] at hp ⊢
  have hn : Untar._hasNext (pre ++ (gr.bytes ++ (r.bytes ++ (archive rs ++ post))))
      ⟨g0, some (pre.length : Int)⟩ = .ok true := by
    rw [hb2]
    exact hasNext_header pre gr.header _ gr.name gr.data.length 103 g0 hg.1
  have hf : fuel + (r :: rs).length = (fuel + rs.length) + 1 := by
    simp [Nat.add_assoc]
  rw [hf, Untar.untarLoop, hn]
  simp only [readNextFile_global scope pre (archive rs ++ post) gr r g0 header depth hg hr hp]
  have hih := untarLoop_normal scope pf (depth + 1) rs (pre ++ gr.bytes ++ r.bytes) post
    (some header)
    (files ++ [addPrefix pf (applyOptional (some header) (fileOf (asciiDecode r.name)
      (some ((pre.length + gr.bytes.length + 512 : Nat) : Int)) (some (r.data.length : Int))
      (urlOf scope r.data)))]) fuel hrs2
  rw [← hb3] at hih
  have hl : (pre ++ gr.bytes ++ r.bytes).length =
      pre.length + gr.bytes.length + 512 + r.data.length + padLength r.data.length := by
    simp [hlen]; omega
  rw [hl] at hih
  rw [hih]
  simp only [archive, entriesFrom, List.length_append, hlen, List.append_assoc,
    List.singleton_append]
  congr 3
  omega


/-- Claim C5: in an archive made of a `'g'` record, normal records, a second
`'g'` record and normal records, no descriptor is returned for the `'g'`
records; every descriptor after the first `'g'` record and before the second
is the descriptor of its record with the first parsed header applied, and
every descriptor after the second `'g'` record has the second parsed header
applied and nothing of the first (`entriesFrom` with the global header given:
`applyOptional (some header) (fileOf ..)` for each record). -/
theorem global_header_persists (scope : Scope) (pf : Option JSString)
    (g1 r1 : TarRecord) (rs1 : List TarRecord) (g2 r2 : TarRecord) (rs2 : List TarRecord)
    (tail : List Nat) (header1 header2 : PaxHeader)
    (hg1 : IsRecord g1 103) (hrs1 : ∀ x ∈ r1 :: rs1, IsNormalRecord x)
    (hg2 : IsRecord g2 103) (hrs2 : ∀ x ∈ r2 :: rs2, IsNormalRecord x)
    (htail : tail = [] ∨ ∃ rest, tail = List.replicate 512 0 ++ rest)
    (hp1 : PaxHeader.parse (archive (g1 :: r1 :: rs1) ++ (archive (g2 :: r2 :: rs2) ++ tail))
      (some 512) (some (g1.data.length : Int)) = .ok header1)
    (hp2 : PaxHeader.parse (archive (g1 :: r1 :: rs1) ++ (archive (g2 :: r2 :: rs2) ++ tail))
      (some (((archive (g1 :: r1 :: rs1)).length + 512 : Nat) : Int))
      (some (g2.data.length : Int)) = .ok header2) :
    Untar.untar scope (archive (g1 :: r1 :: rs1) ++ (archive (g2 :: r2 :: rs2) ++ tail)) pf =
      .ok (entriesFrom scope (some header1) pf g1.bytes.length (r1 :: rs1) ++
        entriesFrom scope (some header2) pf
          ((archive (g1 :: r1 :: rs1)).length + g2.bytes.length) (r2 :: rs2)) := by
  have hl1 := length_le_archive (r1 :: rs1) hrs1
  have hl2 := length_le_archive (r2 :: rs2) hrs2
  have ha1 : (archive (g1 :: r1 :: rs1)).length = g1.bytes.length + (archive (r1 :: rs1)).length := by
    simp [archive]
  have ha2 : (archive (g2 :: r2 :: rs2)).length = g2.bytes.length + (archive (r2 :: rs2)).length := by
    simp [archive]
  have key : ∀ depth fuel,
      Untar.untarLoop scope (archive (g1 :: r1 :: rs1) ++ (archive (g2 :: r2 :: rs2) ++ tail)) pf
        (depth + 2) ((fuel + 1 + (r2 :: rs2).length) + (r1 :: rs1).length)
        ⟨none, some ((0 : Nat) : Int)⟩ [] =
      .ok (entriesFrom scope (some header1) pf g1.bytes.length (r1 :: rs1) ++
        entriesFrom scope (some header2) pf
          ((archive (g1 :: r1 :: rs1)).length + g2.bytes.length) (r2 :: rs2)) := by
    intro depth fuel
    have s1 := untarLoop_global scope pf depth (fuel + 1 + (r2 :: rs2).length) []
      (archive (g2 :: r2 :: rs2) ++ tail) g1 r1 rs1 none header1 [] hg1 hrs1
      (by simpa using hp1)
    simp only [List.nil_append, List.length_nil, Nat.zero_add] at s1
    have s2 := untarLoop_global scope pf depth (fuel + 1) (archive (g1 :: r1 :: rs1)) tail
      g2 r2 rs2 (some header1) header2
      (entriesFrom scope (some header1) pf g1.bytes.length (r1 :: rs1)) hg2 hrs2 hp2
    have s3 := untarLoop_end scope pf (depth + 2) fuel
      (archive (g1 :: r1 :: rs1) ++ archive (g2 :: r2 :: rs2)) tail (some header2)
      (entriesFrom scope (some header1) pf g1.bytes.length (r1 :: rs1) ++
        entriesFrom scope (some header2) pf
          ((archive (g1 :: r1 :: rs1)).length + g2.bytes.length) (r2 :: rs2)) htail
    rw [List.append_assoc, List.length_append] at s3
    rw [s1, s2, s3]
  have hnew : Untar.new = ⟨none, some ((0 : Nat) : Int)⟩ := rfl
  have hgen : ∀ d m,
      d = ((archive (g1 :: r1 :: rs1) ++ (archive (g2 :: r2 :: rs2) ++ tail)).length - 1) + 2 →
      m = (((archive (g1 :: r1 :: rs1) ++ (archive (g2 :: r2 :: rs2) ++ tail)).length -
        (r2 :: rs2).length - (r1 :: rs1).length) + 1 + (r2 :: rs2).length) + (r1 :: rs1).length →
      Untar.untarLoop scope (archive (g1 :: r1 :: rs1) ++ (archive (g2 :: r2 :: rs2) ++ tail)) pf
        d m Untar.new [] =
      .ok (entriesFrom scope (some header1) pf g1.bytes.length (r1 :: rs1) ++
        entriesFrom scope (some header2) pf
          ((archive (g1 :: r1 :: rs1)).length + g2.bytes.length) (r2 :: rs2)) := by
    intro d m hd hm
    rw [hd, hm, hnew]
    exact key _ _
  unfold Untar.untar Untar.untarFuel
  apply hgen
  · simp only [List.length_append, ha1, ha2, List.length_cons] at hl1 hl2 ⊢
    omega
  · simp only [List.length_append, ha1, ha2, List.length_cons] at hl1 hl2 ⊢
    omega


theorem global_header_persists_witness :
    Untar.untar directScope
      (archive [mkRecord (asc "pax_global_header") 103 (asc "14 name=G.txt\n"),
          mkRecord (asc "a.txt") 48 (asc "hi")] ++
        (archive [mkRecord (asc "pax_global_header") 103 (asc "12 mtime=42\n"),
          mkRecord (asc "b.txt") 48 (asc "ho")] ++ [])) none =
      .ok [fileOf (asc "G.txt") (some 1536) (some 2) (.str (asc "blob:")),
        fileOf (asc "b.txt") (some 3584) (some 2) (.str (asc "blob:")) ++
          [(asc "mtime", .str (asc "42"))]] := by
  have h := global_header_persists directScope none
    (mkRecord (asc "pax_global_header") 103 (asc "14 name=G.txt\n"))
    (mkRecord (asc "a.txt") 48 (asc "hi")) []
    (mkRecord (asc "pax_global_header") 103 (asc "12 mtime=42\n"))
    (mkRecord (asc "b.txt") 48 (asc "ho")) [] []
    ⟨[⟨asc "name", some (asc "G.txt")⟩]⟩ ⟨[⟨asc "mtime", some (asc "42")⟩]⟩
    (by decide!) (by decide!) (by decide!) (by decide!) (Or.inl rfl)
    (by decide!) (by decide!)
  rw [h]
  decide!

/-! ## Text of a PAX record -/

theorem split_length (sep : Nat) (s : JSString) :
    (split sep s).length = s.count sep + 1 := by
  induction s with
  | nil => rfl
  | cons c cs ih =>
    rw [split]
    by_cases h : c = sep
    · subst h
      simp [ih]
    · rw [if_neg h, List.count_cons_of_ne (Ne.symm h)]
      cases hs : split sep cs with
      | nil => rw [hs] at ih; simp at ih
      | cons p ps => rw [hs] at ih; simpa using ih

theorem utf8Start_good (b : Nat) : (utf8Start b).2.Good := by
  unfold utf8Start
  split
  · trivial
  · split
    · simp only [Utf8State.Good]; omega
    · split
      · simp only [Utf8State.Good]
        split <;> split <;> omega
      · split
        · simp only [Utf8State.Good]
          split <;> split <;> omega
        · trivial

theorem utf8Start_count (b : Nat) :
    (utf8Start b).1.count 61 = [b].count 61 := by
  unfold utf8Start
  split
  · rfl
  · have hb : b ≠ 61 := by omega
    have h0 : [b].count 61 = 0 := by
      rw [List.count_eq_zero]
      simpa using Ne.symm hb
    rw [h0]
    split
    · rfl
    · split
      · rfl
      · split
        · rfl
        · rfl

theorem utf8Run_count (bs : List Nat) :
    ∀ st : Utf8State, st.Good → (utf8Run st bs).count 61 = bs.count 61 := by
  induction bs with
  | nil =>
    intro st _
    cases st <;> rfl
  | cons b bs ih =>
    intro st hst
    cases st with
    | clean =>
      rw [utf8Run, List.count_append, ih _ (utf8Start_good b), utf8Start_count]
      simp [List.count_cons]
      omega
    | pending cp needed lower upper =>
      obtain ⟨h1, h2, h3, h4, h5⟩ := hst
      rw [utf8Run]
      split
      · rename_i hin
        have hb : b ≠ 61 := by omega
        rw [List.count_cons_of_ne (Ne.symm hb)]
        split
        · rename_i hn
          have hcp := h5 hn
          have he : cp * 64 + b % 64 ≠ 61 := by omega
          rw [List.count_cons_of_ne (Ne.symm he)]
          exact ih .clean trivial
        · rename_i hn
          apply ih
          simp only [Utf8State.Good]
          omega
      · rw [List.count_cons_of_ne (by norm_num), List.count_append,
          ih _ (utf8Start_good b), utf8Start_count]
        simp [List.count_cons]
        omega

theorem utfDecode_count (bs : List Nat) : (utfDecode bs).count 61 = bs.count 61 := by
  rw [← utf8Run_count bs .clean trivial]
  unfold utfDecode
  split
  · rename_i rest h
    rw [h, List.count_cons_of_ne (by norm_num)]
  · rfl

theorem utf8Run_ascii (bs : List Nat) (h : ∀ b ∈ bs, b < 128) :
    utf8Run .clean bs = bs := by
  induction bs with
  | nil => rfl
  | cons b bs ih =>
    have hb : b ≤ 0x7F := by
      have := h b (List.mem_cons_self _ _)
      omega
    rw [utf8Run, utf8Start, if_pos hb]
    simp only [List.singleton_append]
    rw [ih (fun x hx => h x (List.mem_cons_of_mem _ hx))]

theorem utfDecode_ascii (bs : List Nat) (h : ∀ b ∈ bs, b < 128) : utfDecode bs = bs := by
  unfold utfDecode
  rw [utf8Run_ascii bs h]
  split
  · have := h 0xFEFF (List.mem_cons_self _ _)
    omega
  · rfl


theorem isWhiteSpace_digit (c : Nat) (h : 48 ≤ c ∧ c ≤ 57) : isWhiteSpace c = false := by
  unfold isWhiteSpace
  simp only [Bool.or_eq_false_iff, decide_eq_false_iff_not, Bool.and_eq_false_imp,
    decide_eq_true_eq]
  omega

theorem isRadixDigit_digit (c : Nat) (h : 48 ≤ c ∧ c ≤ 57) : isRadixDigit 10 c = true := by
  unfold isRadixDigit digitValue
  rw [if_pos h]
  simp only [decide_eq_true_eq]
  omega

theorem parseInt_digits (digits : List Nat) (hne : digits ≠ [])
    (h : ∀ c ∈ digits, 48 ≤ c ∧ c ≤ 57) :
    parseInt digits 10 = some (digitsValue 10 digits : Int) := by
  obtain ⟨c, cs, rfl⟩ := List.exists_cons_of_ne_nil hne
  have hc := h c (List.mem_cons_self _ _)
  have h1 : List.dropWhile isWhiteSpace (c :: cs) = c :: cs := by
    rw [List.dropWhile_cons, isWhiteSpace_digit c hc]
    rfl
  have h2 : List.takeWhile (isRadixDigit 10) (c :: cs) = c :: cs := by
    rw [List.takeWhile_eq_self_iff]
    intro x hx
    exact isRadixDigit_digit x (h x hx)
  have h3 : ((c :: cs).head? == some 45) = false := by
    simp only [List.head?_cons, beq_eq_false_iff_ne, ne_eq, Option.some.injEq]
    omega
  have h4 : ((c :: cs).head? == some 43) = false := by
    simp only [List.head?_cons, beq_eq_false_iff_ne, ne_eq, Option.some.injEq]
    omega
  unfold parseInt
  simp only [h1, h3, h4, Bool.or_false, Bool.false_eq_true, if_false, h2, List.isEmpty_cons]

theorem findSpace_digits (digits rest : List Nat) (h : ∀ c ∈ digits, 48 ≤ c ∧ c ≤ 57) :
    findSpace (digits ++ 32 :: rest) 0 = digits.length := by
  unfold findSpace
  rw [List.drop_zero, Nat.zero_add]
  induction digits with
  | nil => simp
  | cons c cs ih =>
    have hc := h c (List.mem_cons_self _ _)
    have hne : (c != 32) = true := by
      simp only [bne_iff_ne, ne_eq]; omega
    rw [List.cons_append, List.takeWhile_cons, hne]
    simp only [if_true, List.length_cons]
    rw [ih (fun x hx => h x (List.mem_cons_of_mem _ hx))]


theorem parseLoop_single (pre post digits body : List Nat) (t fuel : Nat)
    (hne : digits ≠ []) (hdig : ∀ c ∈ digits, 48 ≤ c ∧ c ≤ 57)
    (hL : digitsValue 10 digits = (digits ++ 32 :: (body ++ [t])).length) :
    PaxHeader.parseLoop (pre ++ ((digits ++ 32 :: (body ++ [t])) ++ post))
        (some (pre.length : Int)) (digits ++ 32 :: (body ++ [t])) (fuel + 2) 0 [] =
      match split 61 (utfDecode body) with
      | [name, value] => .ok ⟨[⟨name, if value.isEmpty then none else some value⟩]⟩
      | _ => .error .invalidPax := by
  have hlen : (digits ++ 32 :: (body ++ [t])).length = digits.length + body.length + 2 := by
    simp; omega
  have hpos : 0 < (digits ++ 32 :: (body ++ [t])).length := by omega
  have hsp := findSpace_digits digits (body ++ [t]) hdig
  have hv1 : view (pre ++ ((digits ++ 32 :: (body ++ [t])) ++ post))
      (Num.add (some (pre.length : Int)) (some ((0 : Nat) : Int)))
      (some ((digits.length : Int) - ((0 : Nat) : Int))) = .ok digits := by
    have := view_mid pre digits (32 :: (body ++ [t]) ++ post) pre.length digits.length rfl rfl
    simpa [Num.add, List.append_assoc] using this
  have hasc : ∀ b ∈ digits, b < 128 := fun b hb => by
    have := hdig b hb
    omega
  have hfl : parseInt (utfDecode digits) 10 =
      some (((digits.length + body.length + 2 : Nat)) : Int) := by
    rw [utfDecode_ascii digits hasc, parseInt_digits digits hne hdig, hL, hlen]
  have hv2 : view (pre ++ ((digits ++ 32 :: (body ++ [t])) ++ post))
      (Num.add (Num.add (some (pre.length : Int)) (some (digits.length : Int))) (some 1))
      (Num.sub (Num.sub (some (((digits.length + body.length + 2 : Nat)) : Int))
        (some ((digits.length : Int) - ((0 : Nat) : Int)))) (some 2)) = .ok body := by
    have := view_mid (pre ++ digits ++ [32]) body ([t] ++ post)
      (pre.length + digits.length + 1) body.length (by simp [Nat.add_assoc]) rfl
    have e1 : Num.add (Num.add (some (pre.length : Int)) (some (digits.length : Int))) (some 1)
        = some ((pre.length + digits.length + 1 : Nat) : Int) := by
      simp [Num.add]
    have e2 : Num.sub (Num.sub (some (((digits.length + body.length + 2 : Nat)) : Int))
        (some ((digits.length : Int) - ((0 : Nat) : Int)))) (some 2) =
        some (body.length : Int) := by
      simp only [Num.sub, Option.some.injEq]
      push_cast
      ring
    rw [e1, e2]
    simpa [List.append_assoc] using this
  rw [PaxHeader.parseLoop, if_pos hpos]
  simp only [hsp]
  rw [if_neg (by omega)]
  simp only [hv1, hfl, hv2]
  have hstop : ∀ fields, PaxHeader.parseLoop
      (pre ++ ((digits ++ 32 :: (body ++ [t])) ++ post)) (some (pre.length : Int))
      (digits ++ 32 :: (body ++ [t])) (fuel + 1)
      (0 + ((some (((digits.length + body.length + 2 : Nat)) : Int)).getD 0).toNat) fields =
      .ok ⟨fields⟩ := by
    intro fields
    rw [PaxHeader.parseLoop, if_neg]
    simp only [Option.getD_some, Int.toNat_ofNat, hlen]
    omega
  rcases split 61 (utfDecode body) with _ | ⟨a, _ | ⟨b, _ | ⟨c, l⟩⟩⟩
  · rfl
  · rfl
  · exact hstop _
  · rfl


/-- Claim C9: for a range holding one PAX record, that is decimal digits that
give the length of the whole range, a space, a body and one final byte (the
newline), `PaxHeader.parse` throws the format error if and only if the body
does not hold exactly one `=`, and returns exactly one field otherwise. -/
theorem parse_single_record (pre post digits body : List Nat) (t : Nat)
    (hne : digits ≠ []) (hdig : ∀ c ∈ digits, 48 ≤ c ∧ c ≤ 57)
    (hL : digitsValue 10 digits = (digits ++ 32 :: (body ++ [t])).length) :
    (PaxHeader.parse (pre ++ ((digits ++ 32 :: (body ++ [t])) ++ post))
        (some (pre.length : Int)) (some ((digits ++ 32 :: (body ++ [t])).length : Int)) =
      .error .invalidPax ↔ body.count 61 ≠ 1) ∧
    (body.count 61 = 1 → ∃ name value, split 61 (utfDecode body) = [name, value] ∧
      PaxHeader.parse (pre ++ ((digits ++ 32 :: (body ++ [t])) ++ post))
        (some (pre.length : Int)) (some ((digits ++ 32 :: (body ++ [t])).length : Int)) =
      .ok ⟨[⟨name, if value.isEmpty then none else some value⟩]⟩) := by
  have hlen : (digits ++ 32 :: (body ++ [t])).length = digits.length + body.length + 2 := by
    simp; omega
  have hparse : PaxHeader.parse (pre ++ ((digits ++ 32 :: (body ++ [t])) ++ post))
      (some (pre.length : Int)) (some ((digits ++ 32 :: (body ++ [t])).length : Int)) =
      match split 61 (utfDecode body) with
      | [name, value] => .ok ⟨[⟨name, if value.isEmpty then none else some value⟩]⟩
      | _ => .error .invalidPax := by
    unfold PaxHeader.parse
    rw [view_mid pre _ post pre.length _ rfl rfl]
    simp only
    have hf : (digits ++ 32 :: (body ++ [t])).length + 1 =
        (digits.length + body.length) + 1 + 2 := by omega
    rw [hf]
    exact parseLoop_single pre post digits body t _ hne hdig hL
  have hcount : (split 61 (utfDecode body)).length = body.count 61 + 1 := by
    rw [split_length, utfDecode_count]
  rw [hparse]
  constructor
  · constructor
    · intro h h1
      split at h
      · cases h
      · rename_i hno
        rw [h1] at hcount
        match hs : split 61 (utfDecode body), hcount with
        | [a, b], _ => exact hno a b hs
    · intro h
      split
      · rename_i name value heq
        rw [heq] at hcount
        simp at hcount
        omega
      · rfl
  · intro h1
    rw [h1] at hcount
    match hs : split 61 (utfDecode body), hcount with
    | [a, b], _ => exact ⟨a, b, rfl, rfl⟩

theorem parse_single_record_witness :
    (PaxHeader.parse ([] ++ ((asc "12" ++ 32 :: (asc "mtime=42" ++ [10])) ++ []))
        (some (([] : List Nat).length : Int))
        (some ((asc "12" ++ 32 :: (asc "mtime=42" ++ [10])).length : Int)) =
      .error .invalidPax ↔ (asc "mtime=42").count 61 ≠ 1) ∧
    ((asc "mtime=42").count 61 = 1 → ∃ name value,
      split 61 (utfDecode (asc "mtime=42")) = [name, value] ∧
      PaxHeader.parse ([] ++ ((asc "12" ++ 32 :: (asc "mtime=42" ++ [10])) ++ []))
        (some (([] : List Nat).length : Int))
        (some ((asc "12" ++ 32 :: (asc "mtime=42" ++ [10])).length : Int)) =
      .ok ⟨[⟨name, if value.isEmpty then none else some value⟩]⟩) :=
  parse_single_record [] [] (asc "12") (asc "mtime=42") 10 (by decide) (by decide)
    (by decide)

/-! ## Fuel -/

theorem readNextFile_fuel_mono (scope : Scope) (buffer : List Nat) :
    ∀ (fuel k : Nat) (self : Untar) (res : Except Err (File × Untar)),
      Untar._readNextFile scope buffer fuel self = res → res ≠ .error .outOfFuel →
      Untar._readNextFile scope buffer (fuel + k) self = res := by
  intro fuel
  induction fuel with
  | zero =>
    intro k self res h hne
    rw [Untar._readNextFile] at h
    exact absurd h.symm hne
  | succ fuel ih =>
    intro k self res h hne
    have hk : fuel + 1 + k = (fuel + k) + 1 := by omega
    rw [hk, Untar._readNextFile]
    rw [Untar._readNextFile] at h
    cases hr : Untar.readRecord scope buffer self with
    | error e => rw [hr] at h; exact h
    | ok r =>
      rw [hr] at h
      simp only at h ⊢
      by_cases hm : r.moveToNextFile = true
      · rw [if_pos hm] at h ⊢
        exact ih k r.self res h hne
      · rw [if_neg hm] at h ⊢
        exact h

theorem untarLoop_fuel_mono (scope : Scope) (buffer : List Nat) (pf : Option JSString)
    (depth : Nat) :
    ∀ (fuel k j : Nat) (self : Untar) (files : List File) (res : Except Err (List File)),
      Untar.untarLoop scope buffer pf depth fuel self files = res →
      res ≠ .error .outOfFuel →
      Untar.untarLoop scope buffer pf (depth + j) (fuel + k) self files = res := by
  intro fuel
  induction fuel with
  | zero =>
    intro k j self files res h hne
    rw [Untar.untarLoop] at h
    exact absurd h.symm hne
  | succ fuel ih =>
    intro k j self files res h hne
    have hk : fuel + 1 + k = (fuel + k) + 1 := by omega
    rw [hk, Untar.untarLoop]
    rw [Untar.untarLoop] at h
    cases hn : Untar._hasNext buffer self with
    | error e => rw [hn] at h; exact h
    | ok b =>
      rw [hn] at h
      cases b with
      | false => exact h
      | true =>
        simp only at h ⊢
        cases hr : Untar._readNextFile scope buffer depth self with
        | error e =>
          rw [hr] at h
          simp only at h
          have hne2 : (Except.error e : Except Err (File × Untar)) ≠ .error .outOfFuel := by
            intro he
            injection he with he
            apply hne
            rw [← h, he]
          rw [readNextFile_fuel_mono scope buffer depth j self _ hr hne2]
          exact h
        | ok p =>
          rw [hr] at h
          rw [readNextFile_fuel_mono scope buffer depth j self _ hr (by intro he; cases he)]
          obtain ⟨file, self2⟩ := p
          simp only at h ⊢
          exact ih k j self2 _ res h hne

theorem untarFuel_mono (scope : Scope) (buffer : List Nat) (pf : Option JSString)
    (fuel k : Nat) (res : Except Err (List File))
    (h : Untar.untarFuel fuel scope buffer pf = res) (hne : res ≠ .error .outOfFuel) :
    Untar.untarFuel (fuel + k) scope buffer pf = res :=
  untarLoop_fuel_mono scope buffer pf fuel fuel k k Untar.new [] res h hne

/-! ## The local header -/

theorem readRecord_kept_paxHeader (scope : Scope) (buffer : List Nat) (self : Untar)
    (r : Record) (h : Untar.readRecord scope buffer self = .ok r)
    (hm : r.moveToNextFile = false) : r.paxHeader = none := by
  unfold Untar.readRecord at h
  split at h
  · cases h
  · simp only at h
    split at h
    · cases h; rfl
    · split at h
      · split at h
        · cases h
        · cases h; simp at hm
      · split at h
        · split at h
          · cases h
          · cases h; simp at hm
        · cases h; simp at hm

theorem untar_local_header_unused (scope : Scope) (buffer : List Nat)
    (pf : Option JSString) (out : List File)
    (h : Untar.untar scope buffer pf = .ok out) :
    ∀ f ∈ out, ∃ r self0, Untar.readRecord scope buffer self0 = .ok r ∧
      f = addPrefix pf (applyOptional r.self.globalPaxHeader
        (fileOf r.mergedName r.start r.size r.url)) := by
  intro f hf
  obtain ⟨r, self0, hr, hm, hfr⟩ := untar_from_record scope buffer pf out h f hf
  refine ⟨r, self0, hr, ?_⟩
  rw [hfr, Record.toFile, readRecord_kept_paxHeader scope buffer self0 r hr hm]
  rfl

/-! ## The parse loop ends -/

theorem view_ok_length (buffer : List Nat) (off len : Num) (bytes : List Nat)
    (h : view buffer off len = .ok bytes) :
    (len = none ∧ bytes = []) ∨ ∃ l : Int, len = some l ∧ 0 ≤ l := by
  cases len with
  | none =>
    left
    refine ⟨rfl, ?_⟩
    unfold view at h
    cases ho : toIndex off with
    | error e => rw [ho] at h; simp at h
    | ok o =>
      rw [ho] at h
      simp only [toIndex] at h
      split at h
      · cases h; simp
      · cases h
  | some l =>
    right
    refine ⟨l, rfl, ?_⟩
    by_contra hneg
    unfold view at h
    cases ho : toIndex off with
    | error e => rw [ho] at h; simp at h
    | ok o =>
      rw [ho] at h
      simp only [toIndex] at h
      rw [if_pos (by omega)] at h
      simp at h

theorem findSpace_ge (paxArray : List Nat) (c : Nat) : c ≤ findSpace paxArray c := by
  unfold findSpace
  omega

theorem parseLoop_ne_outOfFuel (buffer : List Nat) (start : Num) (paxArray : List Nat) :
    ∀ (fuel c : Nat) (fields : List PaxField), paxArray.length - c < fuel →
      PaxHeader.parseLoop buffer start paxArray fuel c fields ≠ .error .outOfFuel := by
  intro fuel
  induction fuel with
  | zero => intro c fields h; omega
  | succ fuel ih =>
    intro c fields h
    rw [PaxHeader.parseLoop]
    by_cases hc : c < paxArray.length
    · rw [if_pos hc]
      simp only
      split
      · intro he; cases he
      · cases hv1 : view buffer (start.add (some (c : Int)))
            (some ((findSpace paxArray c : Int) - c)) with
        | error e =>
          simp only
          intro he
          injection he with he
          subst he
          unfold view at hv1
          split at hv1
          · split at hv1 <;> cases hv1
          · cases hv1
        | ok lengthBytes =>
          simp only
          cases hv2 : view buffer
              ((start.add (some (findSpace paxArray c : Int))).add (some 1))
              (((parseInt (utfDecode lengthBytes) 10).sub
                (some ((findSpace paxArray c : Int) - c))).sub (some 2)) with
          | error e =>
            simp only
            intro he
            injection he with he
            subst he
            unfold view at hv2
            split at hv2
            · split at hv2 <;> cases hv2
            · cases hv2
          | ok textBytes =>
            simp only
            rcases hs : split 61 (utfDecode textBytes) with _ | ⟨a, _ | ⟨b, _ | ⟨x, l⟩⟩⟩
            · intro he; cases he
            · intro he; cases he
            · simp only
              apply ih
              rcases view_ok_length _ _ _ _ hv2 with ⟨_, hnil⟩ | ⟨l, hl, hl0⟩
              · rw [hnil] at hs
                cases hs
              · cases hf : parseInt (utfDecode lengthBytes) 10 with
                | none => rw [hf] at hl; cases hl
                | some L =>
                  rw [hf] at hl
                  simp only [Num.sub, Option.some.injEq] at hl
                  have hge := findSpace_ge paxArray c
                  simp only [Option.getD_some]
                  omega
            · intro he; cases he
    · rw [if_neg hc]
      intro he
      cases he

theorem parse_ne_outOfFuel (buffer : List Nat) (start length : Num) :
    PaxHeader.parse buffer start length ≠ .error .outOfFuel := by
  unfold PaxHeader.parse
  cases hv : view buffer start length with
  | error e =>
    simp only
    intro he
    injection he with he
    subst he
    unfold view at hv
    split at hv
    · split at hv <;> cases hv
    · cases hv
  | ok paxArray =>
    simp only
    apply parseLoop_ne_outOfFuel
    omega

/-! ## Headers written in the usual layout -/

theorem windows1252_of_lt (b : Nat) (h : b < 128) : windows1252 b = b := by
  unfold windows1252
  rw [if_neg]; omega

theorem asciiDecode_of_lt (bytes : List Nat) (h : ∀ b ∈ bytes, b < 128) :
    asciiDecode bytes = bytes := by
  unfold asciiDecode
  induction bytes with
  | nil => rfl
  | cons b bs ih =>
    rw [List.map_cons, windows1252_of_lt b (h b (List.mem_cons_self _ _)),
      ih (fun x hx => h x (List.mem_cons_of_mem _ hx))]

theorem octalDigits_length (w v : Nat) : (octalDigits w v).length = w := by
  induction w generalizing v with
  | zero => rfl
  | succ w ih => simp [octalDigits, ih]

theorem octalDigits_range (w v : Nat) : ∀ c ∈ octalDigits w v, 48 ≤ c ∧ c ≤ 55 := by
  induction w generalizing v with
  | zero => intro c hc; simp [octalDigits] at hc
  | succ w ih =>
    intro c hc
    rw [octalDigits, List.mem_append] at hc
    rcases hc with hc | hc
    · exact ih _ c hc
    · rw [List.mem_singleton] at hc
      omega

theorem digitValue_octal (c : Nat) (h : 48 ≤ c ∧ c ≤ 55) : digitValue c = some (c - 48) := by
  unfold digitValue
  rw [if_pos (by omega)]

theorem digitsValue_append (radix : Nat) (ds : List Nat) (c : Nat) :
    digitsValue radix (ds ++ [c]) = digitsValue radix ds * radix + (digitValue c).getD 0 := by
  simp [digitsValue, List.foldl_append]

theorem digitsValue_octalDigits (w v : Nat) :
    digitsValue 8 (octalDigits w v) = v % 8 ^ w := by
  induction w generalizing v with
  | zero => simp [octalDigits, digitsValue, Nat.mod_one]
  | succ w ih =>
    rw [octalDigits, digitsValue_append, ih, digitValue_octal _ (by omega)]
    simp only [Option.getD_some, Nat.add_sub_cancel_left]
    rw [pow_succ, Nat.mul_comm (8 ^ w) 8, Nat.mod_mul]
    omega

theorem isRadixDigit_octal (c : Nat) (h : 48 ≤ c ∧ c ≤ 55) : isRadixDigit 8 c = true := by
  unfold isRadixDigit
  rw [digitValue_octal c h]
  simp only [decide_eq_true_eq]
  omega

theorem isWhiteSpace_octal (c : Nat) (h : 48 ≤ c ∧ c ≤ 55) : isWhiteSpace c = false :=
  isWhiteSpace_digit c (by omega)

theorem parseInt_octalField (v : Nat) (hv : v < 8 ^ 11) :
    parseInt (asciiDecode (octalDigits 11 v ++ [0])) 8 = some (v : Int) := by
  have hr := octalDigits_range 11 v
  have hasc : ∀ b ∈ octalDigits 11 v ++ [0], b < 128 := by
    intro b hb
    rw [List.mem_append] at hb
    rcases hb with hb | hb
    · have := hr b hb; omega
    · rw [List.mem_singleton] at hb; omega
  rw [asciiDecode_of_lt _ hasc]
  have hne : octalDigits 11 v ≠ [] := by
    intro h0
    have := octalDigits_length 11 v
    rw [h0] at this
    cases this
  obtain ⟨c, cs, hcs⟩ := List.exists_cons_of_ne_nil hne
  have hc : 48 ≤ c ∧ c ≤ 55 := hr c (by rw [hcs]; exact List.mem_cons_self _ _)
  have h1 : List.dropWhile isWhiteSpace (octalDigits 11 v ++ [0]) = octalDigits 11 v ++ [0] := by
    rw [hcs, List.cons_append, List.dropWhile_cons, isWhiteSpace_octal c hc]
    rfl
  have h2 : List.takeWhile (isRadixDigit 8) (octalDigits 11 v ++ [0]) = octalDigits 11 v := by
    generalize octalDigits 11 v = ds at hr
    induction ds with
    | nil =>
      have : isRadixDigit 8 0 = false := by decide
      simp [List.takeWhile, this]
    | cons d ds ih =>
      rw [List.cons_append, List.takeWhile_cons,
        isRadixDigit_octal d (hr d (List.mem_cons_self _ _))]
      simp only [if_true]
      rw [ih (fun x hx => hr x (List.mem_cons_of_mem _ hx))]
  have h3 : ((octalDigits 11 v ++ [0]).head? == some 45) = false := by
    rw [hcs]
    simp only [List.cons_append, List.head?_cons, beq_eq_false_iff_ne, ne_eq,
      Option.some.injEq]
    omega
  have h4 : ((octalDigits 11 v ++ [0]).head? == some 43) = false := by
    rw [hcs]
    simp only [List.cons_append, List.head?_cons, beq_eq_false_iff_ne, ne_eq,
      Option.some.injEq]
    omega
  have h5 : (octalDigits 11 v).isEmpty = false := by
    rw [hcs]; rfl
  unfold parseInt
  simp only [h1, h3, h4, Bool.or_false, Bool.false_eq_true, if_false, h2, h5,
    digitsValue_octalDigits, Nat.mod_eq_of_lt hv]


theorem mkHeader_isHeader (name : List Nat) (size type : Nat) (hne : name ≠ [])
    (hlen : name.length ≤ 100) (h0 : 0 ∉ name) (hsize : size < 8 ^ 11) :
    IsHeader (mkHeader name size type) name size type := by
  have hl1 : (name ++ List.replicate (100 - name.length) 0).length = 100 := by
    simp; omega
  have hl2 : (name ++ List.replicate (100 - name.length) 0 ++ List.replicate 24 0).length
      = 124 := by
    rw [List.length_append, hl1, List.length_replicate]
  have hl3 : (octalDigits 11 size ++ [0]).length = 12 := by
    simp [octalDigits_length]
  have hl4 : (name ++ List.replicate (100 - name.length) 0 ++ List.replicate 24 0 ++
      (octalDigits 11 size ++ [0]) ++ List.replicate 20 0).length = 156 := by
    rw [List.length_append, List.length_append, hl2, hl3, List.length_replicate]
  refine ⟨?_, hne, hlen, h0, ?_, ?_, ?_⟩
  · unfold mkHeader
    rw [List.length_append, List.length_append, hl4, List.length_replicate,
      List.length_singleton]
  · unfold mkHeader
    simp only [List.append_assoc]
    rw [← List.append_assoc name]
    exact List.take_left' hl1
  · have hd : List.drop 124 (mkHeader name size type) =
        (octalDigits 11 size ++ [0]) ++ (List.replicate 20 0 ++ [type] ++ List.replicate 355 0) := by
      unfold mkHeader
      have : name ++ List.replicate (100 - name.length) 0 ++ List.replicate 24 0 ++
          (octalDigits 11 size ++ [0]) ++ List.replicate 20 0 ++ [type] ++ List.replicate 355 0 =
          (name ++ List.replicate (100 - name.length) 0 ++ List.replicate 24 0) ++
          ((octalDigits 11 size ++ [0]) ++ (List.replicate 20 0 ++ [type] ++ List.replicate 355 0)) := by
        simp only [List.append_assoc]
      rw [this]
      exact List.drop_left' hl2
    rw [hd, List.take_left' hl3]
    exact parseInt_octalField size hsize
  · have hd : List.drop 156 (mkHeader name size type) = [type] ++ List.replicate 355 0 := by
      unfold mkHeader
      have : name ++ List.replicate (100 - name.length) 0 ++ List.replicate 24 0 ++
          (octalDigits 11 size ++ [0]) ++ List.replicate 20 0 ++ [type] ++ List.replicate 355 0 =
          (name ++ List.replicate (100 - name.length) 0 ++ List.replicate 24 0 ++
          (octalDigits 11 size ++ [0]) ++ List.replicate 20 0) ++ ([type] ++ List.replicate 355 0) := by
        simp only [List.append_assoc]
      rw [this]
      exact List.drop_left' hl4
    rw [hd]
    rfl

theorem mkHeader_namePrefix (name : List Nat) (size type : Nat) (hlen : name.length ≤ 100) :
    ∀ b ∈ ((mkHeader name size type).drop 345).take 155, b = 0 := by
  have hl : (name ++ List.replicate (100 - name.length) 0 ++ List.replicate 24 0 ++
      (octalDigits 11 size ++ [0]) ++ List.replicate 20 0 ++ [type]).length = 157 := by
    simp [octalDigits_length]; omega
  have hd : List.drop 157 (mkHeader name size type) = List.replicate 355 0 := by
    unfold mkHeader
    exact List.drop_left' hl
  intro b hb
  have hb2 := List.mem_of_mem_take hb
  have h345 : List.drop 345 (mkHeader name size type) =
      List.drop 188 (List.drop 157 (mkHeader name size type)) := by
    rw [List.drop_drop]
  rw [h345, hd] at hb2
  have hb3 := List.mem_of_mem_drop hb2
  exact (List.mem_replicate.mp hb3).2

theorem mkRecord_isRecord (name data : List Nat) (type : Nat) (hne : name ≠ [])
    (hlen : name.length ≤ 100) (h0 : 0 ∉ name) (hsize : data.length < 8 ^ 11) :
    IsRecord (mkRecord name type data) type :=
  ⟨mkHeader_isHeader name data.length type hne hlen h0 hsize, by simp [mkRecord]⟩

theorem mkRecord_isNormalRecord (name data : List Nat) (hne : name ≠ [])
    (hlen : name.length ≤ 100) (h0 : 0 ∉ name) (hsize : data.length < 8 ^ 11) :
    IsNormalRecord (mkRecord name 48 data) :=
  ⟨mkRecord_isRecord name data 48 hne hlen h0 hsize,
    mkHeader_namePrefix name data.length 48 hlen⟩

/-! ## The end of the archive -/

theorem foldl_word_eq_zero (bs : List Nat) :
    bs.foldl (fun acc b => acc * 256 + b) 0 = 0 ↔ ∀ b ∈ bs, b = 0 := by
  constructor
  · intro h b hb
    by_contra hne
    obtain ⟨l1, l2, rfl⟩ := List.append_of_mem hb
    rw [List.foldl_append, List.foldl_cons] at h
    exact foldl_word_ne_zero l2 _ (by omega) h
  · intro h
    induction bs with
    | nil => rfl
    | cons b bs ih =>
      have hb : b = 0 := h b (List.mem_cons_self _ _)
      subst hb
      simpa using ih (fun x hx => h x (List.mem_cons_of_mem _ hx))

/-- Claim C16 fails as stated: with exactly 4 bytes left at the cursor, not
all zero, `_hasNext()` is false although `cursor + 4 <= byteLength`. -/
theorem hasNext_false_with_four_bytes :
    Untar._hasNext [1, 2, 3, 4] Untar.new = .ok false ∧
      (0 + 4 ≤ [1, 2, 3, 4].length) ∧ ∃ b ∈ [1, 2, 3, 4], b ≠ 0 := by
  decide

/-- Claim C16 as amended: at a cursor `c ≥ 0`, `_hasNext()` is true if and
only if more than 4 bytes remain (`c + 4 < byteLength`) and the next 4 bytes
are not all zero; otherwise it is false. -/
theorem hasNext_iff (buffer : List Nat) (g : Option PaxHeader) (c : Nat) :
    Untar._hasNext buffer ⟨g, some (c : Int)⟩ =
      .ok (decide (c + 4 < buffer.length ∧ ∃ b ∈ (buffer.drop c).take 4, b ≠ 0)) := by
  unfold Untar._hasNext
  by_cases hlt : c + 4 < buffer.length
  · have h1 : Num.lt (Num.add (some (c : Int)) (some 4)) (some (buffer.length : Int)) = true := by
      simp only [Num.lt, Num.add, decide_eq_true_eq]
      omega
    have hv : view buffer (some (c : Int)) (some 4) = .ok ((buffer.drop c).take 4) := by
      have h4 : toIndex (some (4 : Int)) = .ok 4 := toIndex_natCast 4
      simp only [view, toIndex_natCast, h4]
      rw [if_pos (by omega)]
    rw [h1]
    simp only [if_true, getUint32, hv]
    by_cases hz : ∀ b ∈ (buffer.drop c).take 4, b = 0
    · have h0 := (foldl_word_eq_zero _).mpr hz
      have hne : ¬ ∃ b ∈ (buffer.drop c).take 4, b ≠ 0 := by
        intro ⟨b, hb, hb0⟩
        exact hb0 (hz b hb)
      simp only [h0, hlt, hne, and_false, decide_False]
      rfl
    · have h0 : (List.take 4 (List.drop c buffer)).foldl (fun acc b => acc * 256 + b) 0 ≠ 0 :=
        fun h => hz ((foldl_word_eq_zero _).mp h)
      have hex : ∃ b ∈ (buffer.drop c).take 4, b ≠ 0 := by
        by_contra hno
        apply hz
        intro b hb
        by_contra hb0
        exact hno ⟨b, hb, hb0⟩
      simp only [hlt, hex, and_self, decide_True]
      simp [h0]
  · have h1 : Num.lt (Num.add (some (c : Int)) (some 4)) (some (buffer.length : Int)) = false := by
      simp only [Num.lt, Num.add, decide_eq_false_iff_not]
      omega
    rw [h1]
    simp [hlt]

/-! ## Records that are not returned -/

/-- Claim C14, evaluated on a record whose type flag is the NUL byte, followed
by a normal record: the first record is skipped (its flag decodes to the
one-character string `"\0"`, which is neither `"0"` nor `""`) and `untar`
returns the second record only. -/
theorem nul_type_flag_is_skipped :
    Untar.untar directScope
        (archive [mkRecord (asc "a.txt") 0 (asc "hi"),
          mkRecord (asc "b.txt") 48 (asc "ho")]) none =
      .ok [fileOf (asc "b.txt") (some 1536) (some 2) (.str (asc "blob:"))] ∧
    (Untar.readRecord directScope
        (archive [mkRecord (asc "a.txt") 0 (asc "hi"),
          mkRecord (asc "b.txt") 48 (asc "ho")]) Untar.new).map
      (fun r => (r.type, r.moveToNextFile)) = .ok ([0], true) := by
  decide!

/-- Claim C15, evaluated on a normal record followed by a directory record
(type flag `'5'`, size 0): when the archive ends with the two usual zero
blocks, `untar` returns the normal record twice, the second time with
`start = NaN`; when the buffer ends after the directory record, `untar`
throws a `RangeError`.  A directory record that is followed by a normal
record is skipped as the claim says. -/
theorem trailing_skipped_record_is_not_silent :
    Untar.untar directScope
        (archive [mkRecord (asc "a.txt") 48 (asc "hi"), mkRecord (asc "d/") 53 []] ++
          List.replicate 1024 0) none =
      .ok [fileOf (asc "a.txt") (some 512) (some 2) (.str (asc "blob:")),
        fileOf (asc "a.txt") none (some 2) (.str (asc "blob:"))] ∧
    Untar.untar directScope
        (archive [mkRecord (asc "a.txt") 48 (asc "hi"), mkRecord (asc "d/") 53 []]) none =
      .error .rangeError ∧
    Untar.untar directScope
        (archive [mkRecord (asc "d/") 53 [], mkRecord (asc "a.txt") 48 (asc "hi")] ++
          List.replicate 1024 0) none =
      .ok [fileOf (asc "a.txt") (some 1024) (some 2) (.str (asc "blob:"))] := by
  decide!

/-! ## A skipped record before a content record -/

theorem readRecord_skipped (scope : Scope) (pre hd data rest name : List Nat) (t : Nat)
    (g : Option PaxHeader)
    (ht : windows1252 t ≠ 48 ∧ windows1252 t ≠ 103 ∧ windows1252 t ≠ 120)
    (hh : IsHeader hd name data.length t) :
    Untar.readRecord scope (pre ++ (hd ++ (data ++ rest))) ⟨g, some (pre.length : Int)⟩ =
      .ok ⟨asciiDecode name, substr (asciiDecode hd) 257 6,
        removeNul (substr (asciiDecode hd) 345 155), some (data.length : Int),
        [windows1252 t], some ((pre.length + 512 : Nat) : Int), .null, none, true,
        ⟨g, some ((pre.length + 512 + data.length + padLength data.length : Nat) : Int)⟩⟩ := by
  obtain ⟨hlen, hne, hnl, h0, hname, hsize, htype⟩ := hh
  obtain ⟨h48, h103, h120⟩ := ht
  have hv : view (pre ++ (hd ++ (data ++ rest))) (some (pre.length : Int)) (some 512) = .ok hd :=
    view_mid pre hd (data ++ rest) pre.length 512 rfl hlen.symm
  have hn : removeNul (substr (asciiDecode hd) 0 100) = asciiDecode name := by
    rw [substr_asciiDecode, List.drop_zero, hname, removeNul_name _ _ h0]
  have hs : parseInt (substr (asciiDecode hd) 124 12) 8 = some (data.length : Int) := by
    rw [substr_asciiDecode, hsize]
  have ht2 : substr (asciiDecode hd) 156 1 = [windows1252 t] := by
    rw [substr_asciiDecode, htype]
    rfl
  have a0 : asc "0" = [48] := by decide
  have ag : asc "g" = [103] := by decide
  have ax : asc "x" = [120] := by decide
  have hadd : Num.add (some (pre.length : Int)) (some 512) = some ((pre.length + 512 : Nat) : Int) := by
    simp [Num.add]
  have hadd2 : Num.add (some ((pre.length + 512 : Nat) : Int)) (some (data.length : Int))
      = some ((pre.length + 512 + data.length : Nat) : Int) := by
    simp [Num.add]
  have hadd3 : Num.add (some ((pre.length + 512 + data.length : Nat) : Int))
      (some (padLength data.length : Int))
      = some ((pre.length + 512 + data.length + padLength data.length : Nat) : Int) := by
    simp [Num.add]
  unfold Untar.readRecord
  simp only [hv, hn, hs, ht2, skip_eq, a0, ag, ax, hadd, hadd2, hadd3]
  simp [h48, h103, h120]

theorem readNextFile_skipped (scope : Scope) (pre rest : List Nat) (sk r : TarRecord) (t : Nat)
    (g : Option PaxHeader) (fuel : Nat)
    (ht : windows1252 t ≠ 48 ∧ windows1252 t ≠ 103 ∧ windows1252 t ≠ 120)
    (hs : IsRecord sk t) (hr : IsNormalRecord r) :
    Untar._readNextFile scope (pre ++ (sk.bytes ++ (r.bytes ++ rest))) (fuel + 2)
        ⟨g, some (pre.length : Int)⟩ =
      .ok (applyOptional g (fileOf (asciiDecode r.name)
          (some ((pre.length + sk.bytes.length + 512 : Nat) : Int))
          (some (r.data.length : Int)) (urlOf scope r.data)),
        ⟨g, some ((pre.length + sk.bytes.length + 512 + r.data.length +
          padLength r.data.length : Nat) : Int)⟩) := by
  have hlen := bytes_length sk t hs
  have hb : pre ++ (sk.bytes ++ (r.bytes ++ rest)) =
      pre ++ (sk.header ++ (sk.data ++ (sk.padding ++ (r.bytes ++ rest)))) := by
    simp [TarRecord.bytes, List.append_assoc]
  have hb2 : pre ++ (sk.bytes ++ (r.bytes ++ rest)) = (pre ++ sk.bytes) ++ (r.bytes ++ rest) := by
    simp [List.append_assoc]
  have h1 := readRecord_skipped scope pre sk.header sk.data (sk.padding ++ (r.bytes ++ rest))
    sk.name t g ht hs.1
  rw [← hb] at h1
  have h2 := readNextFile_normal scope (pre ++ sk.bytes) rest r g fuel hr
  rw [← hb2] at h2
  have hl : (pre ++ sk.bytes).length = pre.length + sk.bytes.length := by simp
  rw [hl] at h2
  rw [Untar._readNextFile, h1]
  simp only [if_true]
  have hc : pre.length + 512 + sk.data.length + padLength sk.data.length =
      pre.length + sk.bytes.length := by
    rw [hlen]; omega
  rw [hc]
  exact h2

theorem untarLoop_skipped (scope : Scope) (pf : Option JSString) (depth fuel : Nat)
    (pre post : List Nat) (sk r : TarRecord) (rs : List TarRecord) (t : Nat)
    (g : Option PaxHeader) (files : List File)
    (ht : windows1252 t ≠ 48 ∧ windows1252 t ≠ 103 ∧ windows1252 t ≠ 120)
    (hs : IsRecord sk t) (hrs : ∀ x ∈ r :: rs, IsNormalRecord x) :
    Untar.untarLoop scope (pre ++ (archive (sk :: r :: rs) ++ post)) pf (depth + 2)
        (fuel + (r :: rs).length) ⟨g, some (pre.length : Int)⟩ files =
      Untar.untarLoop scope (pre ++ (archive (sk :: r :: rs) ++ post)) pf (depth + 2) fuel
        ⟨g, some ((pre.length + (archive (sk :: r :: rs)).length : Nat) : Int)⟩
        (files ++ entriesFrom scope g pf (pre.length + sk.bytes.length) (r :: rs)) := by
  have hr : IsNormalRecord r := hrs r (List.mem_cons_self _ _)
  have hrs2 : ∀ x ∈ rs, IsNormalRecord x := fun x hx => hrs x (List.mem_cons_of_mem _ hx)
  have hlen := bytes_length r 48 hr.1
  have hb : pre ++ (archive (sk :: r :: rs) ++ post) =
      pre ++ (sk.bytes ++ (r.bytes ++ (archive rs ++ post))) := by
    simp [archive, List.append_assoc]
  have hb2 : pre ++ (sk.bytes ++ (r.bytes ++ (archive rs ++ post))) =
      pre ++ (sk.header ++ ((sk.data ++ sk.padding) ++ (r.bytes ++ (archive rs ++ post)))) := by
    simp [TarRecord.bytes, List.append_assoc]
  have hb3 : pre ++ (sk.bytes ++ (r.bytes ++ (archive rs ++ post))) =
      (pre ++ sk.bytes ++ r.bytes) ++ (archive rs ++ post) := by
    simp [List.append_assoc]
  rw [hb]
  have hn : Untar._hasNext (pre ++ (sk.bytes ++ (r.bytes ++ (archive rs ++ post))))
      ⟨g, some (pre.length : Int)⟩ = .ok true := by
    rw [hb2]
    exact hasNext_header pre sk.header _ sk.name sk.data.length t g hs.1
  have hf : fuel + (r :: rs).length = (fuel + rs.length) + 1 := by
    simp [Nat.add_assoc]
  rw [hf, Untar.untarLoop, hn]
  simp only [readNextFile_skipped scope pre (archive rs ++ post) sk r t g depth ht hs hr]
  have hih := untarLoop_normal scope pf (depth + 1) rs (pre ++ sk.bytes ++ r.bytes) post g
    (files ++ [addPrefix pf (applyOptional g (fileOf (asciiDecode r.name)
      (some ((pre.length + sk.bytes.length + 512 : Nat) : Int)) (some (r.data.length : Int))
      (urlOf scope r.data)))]) fuel hrs2
  rw [← hb3] at hih
  have hl : (pre ++ sk.bytes ++ r.bytes).length =
      pre.length + sk.bytes.length + 512 + r.data.length + padLength r.data.length := by
    simp [hlen]; omega
  rw [hl] at hih
  rw [hih]
  simp only [archive, entriesFrom, List.length_append, hlen, List.append_assoc,
    List.singleton_append]
  congr 3
  omega

/-- A record that is neither a content record nor a PAX record, between
normal records and followed by at least one of them, only moves the cursor:
`untar` returns the descriptors of the normal records, each with the `start`
it has in the whole archive. -/
theorem untar_skipped_before_content (scope : Scope) (pf : Option JSString)
    (rs1 : List TarRecord) (sk r : TarRecord) (rs2 : List TarRecord) (t : Nat)
    (tail : List Nat)
    (ht : windows1252 t ≠ 48 ∧ windows1252 t ≠ 103 ∧ windows1252 t ≠ 120)
    (hrs1 : ∀ x ∈ rs1, IsNormalRecord x) (hs : IsRecord sk t)
    (hrs2 : ∀ x ∈ r :: rs2, IsNormalRecord x)
    (htail : tail = [] ∨ ∃ rest, tail = List.replicate 512 0 ++ rest) :
    Untar.untar scope (archive rs1 ++ (archive (sk :: r :: rs2) ++ tail)) pf =
      .ok (entriesFrom scope none pf 0 rs1 ++
        entriesFrom scope none pf ((archive rs1).length + sk.bytes.length) (r :: rs2)) := by
  have hl1 := length_le_archive rs1 hrs1
  have hl2 := length_le_archive (r :: rs2) hrs2
  have ha2 : (archive (sk :: r :: rs2)).length = sk.bytes.length + (archive (r :: rs2)).length := by
    simp [archive]
  have hsk := bytes_length sk t hs
  have key : ∀ depth fuel,
      Untar.untarLoop scope (archive rs1 ++ (archive (sk :: r :: rs2) ++ tail)) pf
        (depth + 2) ((fuel + 1 + (r :: rs2).length) + rs1.length)
        ⟨none, some ((0 : Nat) : Int)⟩ [] =
      .ok (entriesFrom scope none pf 0 rs1 ++
        entriesFrom scope none pf ((archive rs1).length + sk.bytes.length) (r :: rs2)) := by
    intro depth fuel
    have s1 := untarLoop_normal scope pf (depth + 1) rs1 []
      (archive (sk :: r :: rs2) ++ tail) none [] (fuel + 1 + (r :: rs2).length) hrs1
    simp only [List.nil_append, List.length_nil, Nat.zero_add] at s1
    have s2 := untarLoop_skipped scope pf depth (fuel + 1) (archive rs1) tail sk r rs2 t none
      (entriesFrom scope none pf 0 rs1) ht hs hrs2
    have s3 := untarLoop_end scope pf (depth + 2) fuel
      (archive rs1 ++ archive (sk :: r :: rs2)) tail none
      (entriesFrom scope none pf 0 rs1 ++
        entriesFrom scope none pf ((archive rs1).length + sk.bytes.length) (r :: rs2)) htail
    rw [List.append_assoc, List.length_append] at s3
    rw [s1, s2, s3]
  have hnew : Untar.new = ⟨none, some ((0 : Nat) : Int)⟩ := rfl
  have hgen : ∀ d m,
      d = ((archive rs1 ++ (archive (sk :: r :: rs2) ++ tail)).length - 1) + 2 →
      m = (((archive rs1 ++ (archive (sk :: r :: rs2) ++ tail)).length -
        (r :: rs2).length - rs1.length) + 1 + (r :: rs2).length) + rs1.length →
      Untar.untarLoop scope (archive rs1 ++ (archive (sk :: r :: rs2) ++ tail)) pf
        d m Untar.new [] =
      .ok (entriesFrom scope none pf 0 rs1 ++
        entriesFrom scope none pf ((archive rs1).length + sk.bytes.length) (r :: rs2)) := by
    intro d m hd hm
    rw [hd, hm, hnew]
    exact key _ _
  unfold Untar.untar Untar.untarFuel
  apply hgen
  · simp only [List.length_append, ha2, List.length_cons, hsk] at hl1 hl2 ⊢
    omega
  · simp only [List.length_append, ha2, List.length_cons, hsk] at hl1 hl2 ⊢
    omega

/-! ## A run that does not end -/

theorem negative_size_step (depth : Nat) :
    Untar._readNextFile directScope
        (mkHeaderFields (asc "a") (asc "-1000") 48 [] []) (depth + 1) Untar.new =
      .ok (fileOf (asc "a") (some 512) (some (-512)) (.str (asc "blob:")), Untar.new) := by
  have h : Untar._readNextFile directScope
      (mkHeaderFields (asc "a") (asc "-1000") 48 [] []) 1 Untar.new =
      .ok (fileOf (asc "a") (some 512) (some (-512)) (.str (asc "blob:")), Untar.new) := by
    decide!
  have := readNextFile_fuel_mono directScope _ 1 depth Untar.new _ h (by intro he; cases he)
  rw [Nat.add_comm]
  exact this

theorem negative_size_loop (depth : Nat) :
    ∀ (fuel : Nat) (files : List File),
      Untar.untarLoop directScope (mkHeaderFields (asc "a") (asc "-1000") 48 [] []) none
        (depth + 1) fuel Untar.new files = .error .outOfFuel := by
  intro fuel
  induction fuel with
  | zero => intro files; rfl
  | succ fuel ih =>
    intro files
    have hn : Untar._hasNext (mkHeaderFields (asc "a") (asc "-1000") 48 [] []) Untar.new =
        .ok true := by decide!
    rw [Untar.untarLoop, hn]
    simp only [negative_size_step depth]
    exact ih _

/-- Claim C20, evaluated on the buffer of 512 bytes that holds one header of
type `'0'` whose size field is `-1000` (octal, that is -512): the record step
returns a descriptor and leaves the cursor at 0, `_hasNext()` stays true, and
the loop of `untar` is not over after any number of iterations. -/
theorem untar_negative_size_never_returns :
    (mkHeaderFields (asc "a") (asc "-1000") 48 [] []).length = 512 ∧
    (Untar.readRecord directScope (mkHeaderFields (asc "a") (asc "-1000") 48 [] [])
        Untar.new).map (fun r => (r.size, r.self.bytesRead)) = .ok (some (-512), some 0) ∧
    Untar._hasNext (mkHeaderFields (asc "a") (asc "-1000") 48 [] []) Untar.new = .ok true ∧
    ∀ fuel, Untar.untarFuel fuel directScope
      (mkHeaderFields (asc "a") (asc "-1000") 48 [] []) none = .error .outOfFuel := by
  refine ⟨by decide!, by decide!, by decide!, ?_⟩
  intro fuel
  cases fuel with
  | zero => rfl
  | succ n => exact negative_size_loop n (n + 1) []

/-! ## The name of an entry -/

theorem readRecord_content (scope : Scope) (buffer hb : List Nat) (g : Option PaxHeader)
    (c : Int) (hv : view buffer (some c) (some 512) = .ok hb)
    (ht : substr (asciiDecode hb) 156 1 = asc "0") :
    ∃ r, Untar.readRecord scope buffer ⟨g, some c⟩ = .ok r ∧
      r.moveToNextFile = false ∧ r.paxHeader = none ∧ r.self.globalPaxHeader = g ∧
      r.name = removeNul (substr (asciiDecode hb) 0 100) ∧
      r.ustarFormat = substr (asciiDecode hb) 257 6 ∧
      r.namePrefix = removeNul (substr (asciiDecode hb) 345 155) ∧
      r.start = some (c + 512) ∧
      r.size = parseInt (substr (asciiDecode hb) 124 12) 8 := by
  unfold Untar.readRecord
  simp only [hv, ht, true_or, if_true]
  exact ⟨_, rfl, rfl, rfl, rfl, rfl, rfl, rfl, rfl, rfl⟩

/-- Claim C17 fails as stated: for the header with the ustar magic, an empty
name prefix and the name ` a.txt` (a leading space), the entry is named
` a.txt`, where `trim(P) + trim(N)` is `a.txt`. -/
theorem ustar_name_not_trimmed_without_prefix :
    Untar.untar directScope
        (mkHeaderFields (asc " a.txt") (asc "00000000000") 48 (asc "ustar") []) none =
      .ok [fileOf (asc " a.txt") (some 512) (some 0) (.str (asc "blob:"))] ∧
    trim [] ++ trim (asc " a.txt") = asc "a.txt" := by
  decide!

/-- Claim C17 as amended: for a content header, the name of the entry before
PAX overrides and the caller's prefix is `trim(P) + trim(N)` when the header
has the ustar magic and `P` is not empty, and `N` itself (not trimmed) when
the header has the magic and `P` is empty or when it has no magic; `N` and `P`
are the name field and the name-prefix field with their NUL bytes removed. -/
theorem content_entry_name (scope : Scope) (buffer hb : List Nat) (c : Int) (fuel : Nat)
    (hv : view buffer (some c) (some 512) = .ok hb)
    (ht : substr (asciiDecode hb) 156 1 = asc "0") :
    ∃ file self2,
      Untar._readNextFile scope buffer (fuel + 1) ⟨none, some c⟩ = .ok (file, self2) ∧
      (includes (asc "ustar") (substr (asciiDecode hb) 257 6) = true →
        removeNul (substr (asciiDecode hb) 345 155) ≠ [] →
        file.get (asc "name") = some (.str
          (trim (removeNul (substr (asciiDecode hb) 345 155)) ++
            trim (removeNul (substr (asciiDecode hb) 0 100))))) ∧
      (includes (asc "ustar") (substr (asciiDecode hb) 257 6) = true →
        removeNul (substr (asciiDecode hb) 345 155) = [] →
        file.get (asc "name") = some (.str (removeNul (substr (asciiDecode hb) 0 100)))) ∧
      (includes (asc "ustar") (substr (asciiDecode hb) 257 6) = false →
        file.get (asc "name") = some (.str (removeNul (substr (asciiDecode hb) 0 100)))) := by
  obtain ⟨r, hr, hm, hp, hg, hn, hu, hpre, _, _⟩ :=
    readRecord_content scope buffer hb none c hv ht
  have hfile : r.toFile = fileOf r.mergedName r.start r.size r.url := by
    rw [Record.toFile, hp, hg]
    rfl
  have hname : r.toFile.get (asc "name") = some (.str r.mergedName) := by
    rw [hfile]
    rfl
  refine ⟨r.toFile, r.self, ?_, ?_, ?_, ?_⟩
  · rw [Untar._readNextFile, hr]
    simp only [hm]
    rfl
  · intro h1 h2
    rw [hname, Record.mergedName, hu, hpre, hn]
    have h3 : (removeNul (substr (asciiDecode hb) 345 155)).length > 0 :=
      List.length_pos.mpr h2
    rw [if_pos ⟨h1, h3⟩]
  · intro h1 h2
    rw [hname, Record.mergedName, hu, hpre, hn, h2]
    rw [if_neg (by simp)]
  · intro h1
    rw [hname, Record.mergedName, hu, hpre, hn]
    rw [if_neg (by simp [h1])]

theorem content_entry_name_witness :
    ∃ file self2,
      Untar._readNextFile directScope
        (mkHeaderFields (asc "a.txt ") (asc "00000000000") 48 (asc "ustar") (asc "dir/ "))
        (0 + 1) ⟨none, some 0⟩ = .ok (file, self2) ∧
      file.get (asc "name") = some (.str (asc "dir/a.txt")) := by
  have hv : view
      (mkHeaderFields (asc "a.txt ") (asc "00000000000") 48 (asc "ustar") (asc "dir/ "))
      (some 0) (some 512) =
      .ok (mkHeaderFields (asc "a.txt ") (asc "00000000000") 48 (asc "ustar") (asc "dir/ ")) := by
    decide!
  obtain ⟨file, self2, h1, h2, _, _⟩ := content_entry_name directScope _ _ 0 0 hv (by decide!)
  exact ⟨file, self2, h1, by rw [h2 (by decide!) (by decide!)]; decide!⟩

/-! ## Consecutive PAX records -/

theorem findSpace_record (before digits rest : List Nat)
    (h : ∀ c ∈ digits, 48 ≤ c ∧ c ≤ 57) :
    findSpace (before ++ (digits ++ 32 :: rest)) before.length =
      before.length + digits.length := by
  have h0 := findSpace_digits digits rest h
  unfold findSpace at h0 ⊢
  rw [List.drop_zero, Nat.zero_add] at h0
  rw [List.drop_left, h0]

theorem parseLoop_record (pre post before after digits body : List Nat) (t fuel : Nat)
    (fields : List PaxField)
    (hne : digits ≠ []) (hdig : ∀ c ∈ digits, 48 ≤ c ∧ c ≤ 57)
    (hL : digitsValue 10 digits = (digits ++ 32 :: (body ++ [t])).length) :
    PaxHeader.parseLoop
        (pre ++ ((before ++ ((digits ++ 32 :: (body ++ [t])) ++ after)) ++ post))
        (some (pre.length : Int)) (before ++ ((digits ++ 32 :: (body ++ [t])) ++ after))
        (fuel + 1) before.length fields =
      match split 61 (utfDecode body) with
      | [name, value] =>
        PaxHeader.parseLoop
          (pre ++ ((before ++ ((digits ++ 32 :: (body ++ [t])) ++ after)) ++ post))
          (some (pre.length : Int)) (before ++ ((digits ++ 32 :: (body ++ [t])) ++ after))
          fuel (before.length + (digits ++ 32 :: (body ++ [t])).length)
          (fields ++ [⟨name, if value.isEmpty then none else some value⟩])
      | _ => .error .invalidPax := by
  have hlen : (digits ++ 32 :: (body ++ [t])).length = digits.length + body.length + 2 := by
    simp; omega
  have hpos : before.length <
      (before ++ ((digits ++ 32 :: (body ++ [t])) ++ after)).length := by
    simp only [List.length_append, hlen]; omega
  have hsp : findSpace (before ++ ((digits ++ 32 :: (body ++ [t])) ++ after)) before.length =
      before.length + digits.length := by
    have := findSpace_record before digits ((body ++ [t]) ++ after) hdig
    simpa [List.append_assoc] using this
  have hv1 : view (pre ++ ((before ++ ((digits ++ 32 :: (body ++ [t])) ++ after)) ++ post))
      (Num.add (some (pre.length : Int)) (some ((before.length : Nat) : Int)))
      (some (((before.length + digits.length : Nat) : Int) - ((before.length : Nat) : Int))) =
      .ok digits := by
    have := view_mid (pre ++ before) digits (32 :: (body ++ [t]) ++ after ++ post)
      (pre.length + before.length) digits.length (by simp) rfl
    have e1 : Num.add (some (pre.length : Int)) (some ((before.length : Nat) : Int)) =
        some ((pre.length + before.length : Nat) : Int) := by
      simp [Num.add]
    have e2 : (((before.length + digits.length : Nat) : Int) - ((before.length : Nat) : Int)) =
        ((digits.length : Nat) : Int) := by
      push_cast; ring
    rw [e1, e2]
    simpa [List.append_assoc] using this
  have hasc : ∀ b ∈ digits, b < 128 := fun b hb => by
    have := hdig b hb
    omega
  have hfl : parseInt (utfDecode digits) 10 =
      some (((digits.length + body.length + 2 : Nat)) : Int) := by
    rw [utfDecode_ascii digits hasc, parseInt_digits digits hne hdig, hL, hlen]
  have hv2 : view (pre ++ ((before ++ ((digits ++ 32 :: (body ++ [t])) ++ after)) ++ post))
      (Num.add (Num.add (some (pre.length : Int))
        (some ((before.length + digits.length : Nat) : Int))) (some 1))
      (Num.sub (Num.sub (some (((digits.length + body.length + 2 : Nat)) : Int))
        (some (((before.length + digits.length : Nat) : Int) - ((before.length : Nat) : Int))))
        (some 2)) = .ok body := by
    have := view_mid (pre ++ before ++ digits ++ [32]) body ([t] ++ after ++ post)
      (pre.length + before.length + digits.length + 1) body.length (by simp [Nat.add_assoc]) rfl
    have e1 : Num.add (Num.add (some (pre.length : Int))
        (some ((before.length + digits.length : Nat) : Int))) (some 1)
        = some ((pre.length + before.length + digits.length + 1 : Nat) : Int) := by
      simp only [Num.add, Option.some.injEq]
      push_cast; ring
    have e2 : Num.sub (Num.sub (some (((digits.length + body.length + 2 : Nat)) : Int))
        (some (((before.length + digits.length : Nat) : Int) - ((before.length : Nat) : Int))))
        (some 2) = some (body.length : Int) := by
      simp only [Num.sub, Option.some.injEq]
      push_cast
      ring
    rw [e1, e2]
    simpa [List.append_assoc] using this
  rw [PaxHeader.parseLoop, if_pos hpos]
  simp only [hsp]
  rw [if_neg (by simp only [List.length_append, hlen]; omega)]
  simp only [hv1, hfl, hv2]
  have hnext : before.length + ((some (((digits.length + body.length + 2 : Nat)) : Int)).getD 0).toNat
      = before.length + (digits ++ 32 :: (body ++ [t])).length := by
    simp only [Option.getD_some, Int.toNat_ofNat, hlen]
  rw [hnext]

theorem split_no_sep (sep : Nat) (s : JSString) (h : sep ∉ s) : split sep s = [s] := by
  induction s with
  | nil => rfl
  | cons c cs ih =>
    have hc : c ≠ sep := fun e => h (e ▸ List.mem_cons_self _ _)
    have hcs : sep ∉ cs := fun e => h (List.mem_cons_of_mem _ e)
    rw [split, if_neg hc, ih hcs]

theorem split_key_value (sep : Nat) (key value : JSString) (hk : sep ∉ key)
    (hv : sep ∉ value) : split sep (key ++ sep :: value) = [key, value] := by
  induction key with
  | nil =>
    rw [List.nil_append, split, if_pos rfl, split_no_sep sep value hv]
  | cons c cs ih =>
    have hc : c ≠ sep := fun e => hk (e ▸ List.mem_cons_self _ _)
    have hcs : sep ∉ cs := fun e => hk (List.mem_cons_of_mem _ e)
    rw [List.cons_append, split, if_neg hc, ih hcs]

theorem paxRecord_length_pos (r : PaxRecord) : 0 < r.bytes.length := by
  simp [PaxRecord.bytes]

theorem length_le_paxData (recs : List PaxRecord) : recs.length ≤ (paxData recs).length := by
  induction recs with
  | nil => simp
  | cons r rs ih =>
    have := paxRecord_length_pos r
    simp only [paxData, List.length_append, List.length_cons]
    omega

theorem parseLoop_records (pre post : List Nat) (recs : List PaxRecord) :
    ∀ (before : List Nat) (fields : List PaxField) (fuel : Nat),
      (∀ r ∈ recs, IsPaxRecord r) →
      PaxHeader.parseLoop (pre ++ ((before ++ paxData recs) ++ post))
          (some (pre.length : Int)) (before ++ paxData recs)
          (fuel + recs.length + 1) before.length fields =
        .ok ⟨fields ++ recs.map PaxRecord.field⟩ := by
  induction recs with
  | nil =>
    intro before fields fuel _
    rw [PaxHeader.parseLoop, if_neg (by simp [paxData])]
    simp
  | cons r rs ih =>
    intro before fields fuel hall
    obtain ⟨hne, hdig, hL, _, hkey, hval⟩ := hall r (List.mem_cons_self _ _)
    have hrs : ∀ x ∈ rs, IsPaxRecord x := fun x hx => hall x (List.mem_cons_of_mem _ hx)
    have hasc : ∀ b ∈ r.key ++ 61 :: r.value, b < 128 := by
      intro b hb
      rw [List.mem_append, List.mem_cons] at hb
      rcases hb with hb | hb | hb
      · exact (hkey b hb).1
      · omega
      · exact (hval b hb).1
    have hk : 61 ∉ r.key := fun h => (hkey 61 h).2 rfl
    have hv : 61 ∉ r.value := fun h => (hval 61 h).2 rfl
    have hsplit : split 61 (utfDecode (r.key ++ 61 :: r.value)) = [r.key, r.value] := by
      rw [utfDecode_ascii _ hasc, split_key_value 61 r.key r.value hk hv]
    have hf : fuel + (r :: rs).length + 1 = (fuel + rs.length + 1) + 1 := by
      simp only [List.length_cons]; omega
    have step := parseLoop_record pre post before (paxData rs) r.digits
      (r.key ++ 61 :: r.value) 10 (fuel + rs.length + 1) fields hne hdig hL
    rw [hsplit] at step
    simp only at step
    have hih := ih (before ++ r.bytes) (fields ++ [r.field]) fuel hrs
    have hb : before ++ r.bytes ++ paxData rs = before ++ (r.bytes ++ paxData rs) :=
      List.append_assoc _ _ _
    rw [hb, List.length_append] at hih
    rw [hf]
    show PaxHeader.parseLoop (pre ++ ((before ++ (r.bytes ++ paxData rs)) ++ post))
      (some (pre.length : Int)) (before ++ (r.bytes ++ paxData rs))
      (fuel + rs.length + 1 + 1) before.length fields = _
    rw [show r.bytes = r.digits ++ 32 :: ((r.key ++ 61 :: r.value) ++ [10]) from rfl] at hih ⊢
    rw [step]
    rw [show (⟨r.key, if r.value.isEmpty then none else some r.value⟩ : PaxField) = r.field
      from rfl]
    rw [hih]
    simp

/-- Claim C18 fails as stated: for the record `12 mtime=42` and its newline
(`L = 12`, `d = 2`), `PaxHeader.parse` returns the value `42`, the text split
being the `12 - 2 - 2 = 8` bytes `mtime=42`; the `12 - (2 + 1) = 9` bytes
after the space would give a value that ends with the newline. -/
theorem pax_body_excludes_last_byte :
    PaxHeader.parse (asc "12 mtime=42\n") (some 0) (some 12) =
      .ok ⟨[⟨asc "mtime", some (asc "42")⟩]⟩ ∧
    split 61 (utfDecode (((asc "12 mtime=42\n").drop (2 + 1)).take (12 - (2 + 1)))) =
      [asc "mtime", asc "42\n"] ∧
    split 61 (utfDecode (((asc "12 mtime=42\n").drop (2 + 1)).take (12 - (2 + 2)))) =
      [asc "mtime", asc "42"] := by
  decide!

/-- Claim C18 as amended: for a record whose decimal length prefix is `L`,
written with `d` digits, the text that is split into field name and value is
the `L - (d + 2)` bytes immediately after the space, that is everything after
the space except the final byte of the record (its newline); the cursor then
advances by `L`. -/
theorem pax_record_body (pre post before after digits body : List Nat) (t fuel : Nat)
    (fields : List PaxField)
    (hne : digits ≠ []) (hdig : ∀ c ∈ digits, 48 ≤ c ∧ c ≤ 57)
    (hL : digitsValue 10 digits = (digits ++ 32 :: (body ++ [t])).length) :
    body.length = digitsValue 10 digits - (digits.length + 2) ∧
    PaxHeader.parseLoop
        (pre ++ ((before ++ ((digits ++ 32 :: (body ++ [t])) ++ after)) ++ post))
        (some (pre.length : Int)) (before ++ ((digits ++ 32 :: (body ++ [t])) ++ after))
        (fuel + 1) before.length fields =
      match split 61 (utfDecode body) with
      | [name, value] =>
        PaxHeader.parseLoop
          (pre ++ ((before ++ ((digits ++ 32 :: (body ++ [t])) ++ after)) ++ post))
          (some (pre.length : Int)) (before ++ ((digits ++ 32 :: (body ++ [t])) ++ after))
          fuel (before.length + digitsValue 10 digits)
          (fields ++ [⟨name, if value.isEmpty then none else some value⟩])
      | _ => .error .invalidPax := by
  constructor
  · rw [hL]
    simp
    omega
  · rw [parseLoop_record pre post before after digits body t fuel fields hne hdig hL, hL]

theorem pax_record_body_witness :
    (asc "mtime=42").length = digitsValue 10 (asc "12") - ((asc "12").length + 2) ∧
    PaxHeader.parseLoop
        ([] ++ (([] ++ ((asc "12" ++ 32 :: (asc "mtime=42" ++ [10])) ++ [])) ++ []))
        (some (([] : List Nat).length : Int))
        ([] ++ ((asc "12" ++ 32 :: (asc "mtime=42" ++ [10])) ++ []))
        (0 + 1) ([] : List Nat).length [] =
      match split 61 (utfDecode (asc "mtime=42")) with
      | [name, value] =>
        PaxHeader.parseLoop
          ([] ++ (([] ++ ((asc "12" ++ 32 :: (asc "mtime=42" ++ [10])) ++ [])) ++ []))
          (some (([] : List Nat).length : Int))
          ([] ++ ((asc "12" ++ 32 :: (asc "mtime=42" ++ [10])) ++ []))
          0 (([] : List Nat).length + digitsValue 10 (asc "12"))
          ([] ++ [⟨name, if value.isEmpty then none else some value⟩])
      | _ => .error .invalidPax :=
  pax_record_body [] [] [] [] (asc "12") (asc "mtime=42") 10 0 [] (by decide) (by decide)
    (by decide)

/-- Claim C19: for every list of PAX records in the standard form
`<L> <key>=<value>` and a newline (`L` the length of the whole record, key and
value ASCII without `=`), `PaxHeader.parse` over exactly the bytes of the
records returns one field per record, in order, with the key and the value of
the record; the newline is in no value, and an empty value is returned as the
absent marker. -/
theorem parse_pax_records (pre post : List Nat) (recs : List PaxRecord)
    (h : ∀ r ∈ recs, IsPaxRecord r) :
    PaxHeader.parse (pre ++ (paxData recs ++ post)) (some (pre.length : Int))
        (some ((paxData recs).length : Int)) =
      .ok ⟨recs.map PaxRecord.field⟩ ∧
    (recs.map PaxRecord.field).length = recs.length ∧
    ∀ (i : Nat) (hi : i < recs.length),
      (recs.map PaxRecord.field)[i]? =
        some ⟨recs[i].key, if recs[i].value = [] then none else some recs[i].value⟩ := by
  refine ⟨?_, by simp, ?_⟩
  · unfold PaxHeader.parse
    rw [view_mid pre _ post pre.length _ rfl rfl]
    have hle := length_le_paxData recs
    have hf : (paxData recs).length + 1 =
        ((paxData recs).length - recs.length) + recs.length + 1 := by omega
    have := parseLoop_records pre post recs [] [] ((paxData recs).length - recs.length) h
    simp only [List.nil_append, List.length_nil] at this
    simp only
    rw [hf, this]
  · intro i hi
    simp only [List.getElem?_map, List.getElem?_eq_getElem hi, Option.map_some',
      PaxRecord.field, List.isEmpty_iff]

theorem parse_pax_records_witness :
    PaxHeader.parse
        ([] ++ (paxData [⟨asc "12", asc "mtime", asc "42"⟩, ⟨asc "12", asc "comment", []⟩,
          ⟨asc "11", asc "path", asc "ab"⟩] ++ []))
        (some (([] : List Nat).length : Int))
        (some ((paxData [⟨asc "12", asc "mtime", asc "42"⟩, ⟨asc "12", asc "comment", []⟩,
          ⟨asc "11", asc "path", asc "ab"⟩]).length : Int)) =
      .ok ⟨[⟨asc "mtime", some (asc "42")⟩, ⟨asc "comment", none⟩,
        ⟨asc "path", some (asc "ab")⟩]⟩ :=
  (parse_pax_records [] []
    [⟨asc "12", asc "mtime", asc "42"⟩, ⟨asc "12", asc "comment", []⟩,
      ⟨asc "11", asc "path", asc "ab"⟩] (by decide)).1

/-! ## The pending requests -/

theorem dispatch_all (env : MainThread) (reply : Reply) (ls : List Listener) :
    ∀ self : UntarWorker, self.listeners = ls → (ls.map Listener.request).Nodup →
      (ls.foldl (UntarWorker.onmessage env reply) self).listeners = [] ∧
      (ls.foldl (UntarWorker.onmessage env reply) self).pendingRequests =
        self.pendingRequests - ls.length ∧
      (ls.foldl (UntarWorker.onmessage env reply) self).calls.length =
        self.calls.length + ls.length ∧
      (ls.foldl (UntarWorker.onmessage env reply) self).requests = self.requests := by
  induction ls with
  | nil =>
    intro self h _
    simp [h]
  | cons l ls ih =>
    intro self h hnd
    rw [List.map_cons, List.nodup_cons] at hnd
    have hfilter : (UntarWorker.onmessage env reply self l).listeners = ls := by
      simp only [UntarWorker.onmessage, h]
      rw [List.filter_cons_of_neg (by simp)]
      rw [List.filter_eq_self]
      intro x hx
      have : x.request ≠ l.request := by
        intro he
        exact hnd.1 (he ▸ List.mem_map_of_mem _ hx)
      simpa using this
    obtain ⟨h1, h2, h3, h4⟩ := ih (UntarWorker.onmessage env reply self l) hfilter hnd.2
    rw [List.foldl_cons]
    refine ⟨h1, ?_, ?_, ?_⟩
    · rw [h2]
      simp only [UntarWorker.onmessage, List.length_cons]
      push_cast
      ring
    · rw [h3]
      simp only [UntarWorker.onmessage, List.length_append, List.length_cons, List.length_nil]
      omega
    · rw [h4]
      rfl

theorem consistent_untar (self : UntarWorker) (arrayBuffer : List Nat)
    (h : self.Consistent) : (self.untar arrayBuffer).Consistent := by
  obtain ⟨h1, h2, h3, h4⟩ := h
  refine ⟨?_, ?_, ?_, ?_⟩
  · simp only [UntarWorker.untar, List.length_append, List.length_cons, List.length_nil, h1]
    push_cast
    ring
  · simp only [UntarWorker.untar, List.length_append, List.length_cons, List.length_nil]
    push_cast
    omega
  · simp only [UntarWorker.untar, List.map_append, List.map_cons, List.map_nil]
    rw [List.nodup_append]
    refine ⟨h3, by simp, ?_⟩
    intro a ha hb
    rw [List.mem_singleton] at hb
    rw [List.mem_map] at ha
    obtain ⟨l, hl, hla⟩ := ha
    have := h4 l hl
    omega
  · intro l hl
    simp only [UntarWorker.untar, List.mem_append, List.mem_singleton] at hl ⊢
    rcases hl with hl | hl
    · have := h4 l hl
      omega
    · rw [hl]
      simp

theorem consistent_message (env : MainThread) (self : UntarWorker)
    (h : self.Consistent) : (self.message env).Consistent := by
  obtain ⟨h1, h2, h3, h4⟩ := h
  unfold UntarWorker.message
  cases hp : self.posted with
  | nil => exact ⟨h1, h2, h3, h4⟩
  | cons p rest =>
    obtain ⟨filenamePrefix, arrayBuffer⟩ := p
    simp only
    cases hr : workerOnmessage filenamePrefix arrayBuffer with
    | none => exact ⟨h1, h2, h3, h4⟩
    | some reply =>
      simp only
      obtain ⟨d1, d2, d3, d4⟩ := dispatch_all env reply self.listeners
        { self with posted := rest } rfl h3
      refine ⟨?_, ?_, ?_, ?_⟩
      · rw [d1, d2]
        have e0 : ({ self with posted := rest } : UntarWorker).pendingRequests =
            self.pendingRequests := rfl
        rw [e0, h1]
        simp
      · rw [d1, d4, d3]
        have e1 : ({ self with posted := rest } : UntarWorker).requests = self.requests := rfl
        have e2 : ({ self with posted := rest } : UntarWorker).calls = self.calls := rfl
        rw [e1, e2]
        simp only [List.length_nil]
        push_cast
        omega
      · rw [d1]
        simp
      · rw [d1]
        intro l hl
        cases hl

theorem consistent_run (env : MainThread) (events : List Event) :
    ∀ self : UntarWorker, self.Consistent → (self.run env events).Consistent := by
  induction events with
  | nil => intro self h; exact h
  | cons e es ih =>
    intro self h
    cases e with
    | untar arrayBuffer => exact ih _ (consistent_untar self arrayBuffer h)
    | message => exact ih _ (consistent_message env self h)

theorem workerOnmessage_none (filenamePrefix : Option JSString) (arrayBuffer : List Nat) :
    workerOnmessage filenamePrefix arrayBuffer = none := rfl

theorem message_eq_self (env : MainThread) (self : UntarWorker) :
    self.message env = self := by
  unfold UntarWorker.message
  cases self.posted with
  | nil => rfl
  | cons p rest =>
    obtain ⟨filenamePrefix, arrayBuffer⟩ := p
    simp only [workerOnmessage_none]

theorem unanswered_run (env : MainThread) (events : List Event) :
    ∀ self : UntarWorker,
      self.pendingRequests = self.posted.length ∧ self.calls = [] ∧
        self.listeners.length = self.posted.length →
      (self.run env events).pendingRequests = (self.run env events).posted.length ∧
        (self.run env events).calls = [] ∧
        (self.run env events).listeners.length = (self.run env events).posted.length := by
  induction events with
  | nil => intro self h; exact h
  | cons e es ih =>
    intro self h
    cases e with
    | untar arrayBuffer =>
      apply ih
      obtain ⟨h1, h2, h3⟩ := h
      refine ⟨?_, h2, ?_⟩
      · simp only [UntarWorker.untar, List.length_append, List.length_cons, List.length_nil, h1]
        push_cast
        ring
      · simp only [UntarWorker.untar, List.length_append, List.length_cons, List.length_nil, h3]
    | message =>
      have e : UntarWorker.run env self (Event.message :: es) = UntarWorker.run env self es := by
        rw [UntarWorker.run, message_eq_self]
      rw [e]
      exact ih self h

/-- Claim C12: the count of an `UntarWorker` starts at 0, a call of `untar`
adds exactly 1 to it, and a listener that handles a reply takes exactly 1 from
it, whether the reply is an error or files; after every sequence of calls of
`untar` and turns of the worker the count is not negative, it is the number
of requests whose response has not been handled (the messages posted to the
worker for which no reply has come), and `hasPendingRequests()` is true
exactly when that number is positive. -/
theorem pending_requests_count (env : MainThread) (filenamePrefix : Option JSString)
    (events : List Event) :
    (UntarWorker.new filenamePrefix).pendingRequests = 0 ∧
    (∀ (self : UntarWorker) (arrayBuffer : List Nat),
      (self.untar arrayBuffer).pendingRequests = self.pendingRequests + 1) ∧
    (∀ (self : UntarWorker) (reply : Reply) (listener : Listener),
      (self.onmessage env reply listener).pendingRequests = self.pendingRequests - 1) ∧
    0 ≤ ((UntarWorker.new filenamePrefix).run env events).pendingRequests ∧
    ((UntarWorker.new filenamePrefix).run env events).pendingRequests =
      ((UntarWorker.new filenamePrefix).run env events).posted.length ∧
    (((UntarWorker.new filenamePrefix).run env events).hasPendingRequests = true ↔
      0 < ((UntarWorker.new filenamePrefix).run env events).posted.length) := by
  obtain ⟨h1, _, _⟩ := unanswered_run env events (UntarWorker.new filenamePrefix)
    ⟨rfl, rfl, rfl⟩
  refine ⟨rfl, fun _ _ => rfl, fun _ _ _ => rfl, ?_, h1, ?_⟩
  · rw [h1]
    exact Int.natCast_nonneg _
  · unfold UntarWorker.hasPendingRequests
    rw [h1]
    simp

/-- Claim C13, evaluated on two requests in flight on one `UntarWorker`, the
first for the archive of `a.txt` (content `hi`), the second for the archive of
`b.txt` (content `yo`): the script of the worker ends in a `ReferenceError`
before it sets its handler, so that after any number of turns of the worker
no callback has been called, both listeners are still registered and the
count is still 2; and no sequence of events ever calls a callback. -/
theorem callbacks_never_called :
    workerScript = .referenceError ∧
    ((UntarWorker.new none).run plainMainThread
        [.untar (archive [mkRecord (asc "a.txt") 48 (asc "hi")]),
          .untar (archive [mkRecord (asc "b.txt") 48 (asc "yo")]),
          .message, .message]).calls = [] ∧
    ((UntarWorker.new none).run plainMainThread
        [.untar (archive [mkRecord (asc "a.txt") 48 (asc "hi")]),
          .untar (archive [mkRecord (asc "b.txt") 48 (asc "yo")]),
          .message, .message]).listeners =
      [⟨0, archive [mkRecord (asc "a.txt") 48 (asc "hi")]⟩,
        ⟨1, archive [mkRecord (asc "b.txt") 48 (asc "yo")]⟩] ∧
    ((UntarWorker.new none).run plainMainThread
        [.untar (archive [mkRecord (asc "a.txt") 48 (asc "hi")]),
          .untar (archive [mkRecord (asc "b.txt") 48 (asc "yo")]),
          .message, .message]).pendingRequests = 2 ∧
    ∀ (env : MainThread) (filenamePrefix : Option JSString) (events : List Event),
      ((UntarWorker.new filenamePrefix).run env events).calls = [] := by
  refine ⟨rfl, by decide!, by decide!, by decide!, ?_⟩
  intro env filenamePrefix events
  exact (unanswered_run env events (UntarWorker.new filenamePrefix) ⟨rfl, rfl, rfl⟩).2.1

/-- The listeners of `UntarWorker.untar` do not tell whose reply a `message`
event carries: were the reply for the archive of `a.txt` to be dispatched
while the requests for `a.txt` and `b.txt` are both in flight, both callbacks
would be called with the files of `a.txt`, the second one with the `url` made
from the array buffer of `b.txt`. -/
theorem every_listener_handles_a_message_event :
    onmessageHandler none (archive [mkRecord (asc "a.txt") 48 (asc "hi")]) =
      some (.files [fileOf (asc "a.txt") (some 512) (some 2) .null]) ∧
    ((((UntarWorker.new none).untar (archive [mkRecord (asc "a.txt") 48 (asc "hi")])).untar
        (archive [mkRecord (asc "b.txt") 48 (asc "yo")])).listeners.foldl
      (UntarWorker.onmessage plainMainThread
        (.files [fileOf (asc "a.txt") (some 512) (some 2) .null]))
      (((UntarWorker.new none).untar (archive [mkRecord (asc "a.txt") 48 (asc "hi")])).untar
        (archive [mkRecord (asc "b.txt") 48 (asc "yo")]))).calls =
      [⟨0, .ok [fileOf (asc "a.txt") (some 512) (some 2) (.str (asc "hi"))]⟩,
       ⟨1, .ok [fileOf (asc "a.txt") (some 512) (some 2) (.str (asc "yo"))]⟩] := by
  decide!

/-! ## The worker and the direct decoder -/

theorem get_applyField_eq (file : File) (field : PaxField) (key : JSString) :
    (applyField file field).get key =
      match field.value with
      | none => if field.attribute = key then none else file.get key
      | some v =>
        if field.attribute = asc "__proto__" then file.get key
        else if field.attribute = key then some (.str v) else file.get key := by
  unfold applyField
  cases field.value with
  | none => simp only [get_delete]
  | some v =>
    simp only [File.assign]
    by_cases hp : field.attribute = asc "__proto__"
    · simp only [hp, if_true]
    · simp only [hp, if_false, get_put]

theorem agree_applyField (f w : File) (field : PaxField) (h : AgreeButUrl f w) :
    AgreeButUrl (applyField f field) (applyField w field) := by
  intro key hk
  rw [get_applyField_eq, get_applyField_eq, h key hk]

theorem agree_foldl_applyField (fields : List PaxField) :
    ∀ f w : File, AgreeButUrl f w →
      AgreeButUrl (fields.foldl applyField f) (fields.foldl applyField w) := by
  induction fields with
  | nil => intro f w h; exact h
  | cons fd fds ih =>
    intro f w h
    exact ih _ _ (agree_applyField f w fd h)

theorem agree_applyOptional (header : Option PaxHeader) (f w : File)
    (h : AgreeButUrl f w) :
    AgreeButUrl (applyOptional header f) (applyOptional header w) := by
  cases header with
  | none => exact h
  | some hd => exact agree_foldl_applyField hd.fields f w h

theorem agree_fileOf (name : JSString) (start size : Num) (url1 url2 : Value) :
    AgreeButUrl (fileOf name start size url1) (fileOf name start size url2) := by
  intro key hk
  simp only [fileOf, File.get]
  rw [if_neg (Ne.symm hk), if_neg (Ne.symm hk)]

theorem agree_addPrefix (pf : Option JSString) (f w : File) (h : AgreeButUrl f w) :
    AgreeButUrl (addPrefix pf f) (addPrefix pf w) := by
  have hn : f.get (asc "name") = w.get (asc "name") := h _ (by decide)
  intro key hk
  unfold addPrefix
  cases pf with
  | none => exact h key hk
  | some p =>
    simp only [hn]
    split
    · rw [File.assign, File.assign, if_neg name_ne_proto, if_neg name_ne_proto, get_put,
        get_put, h key hk]
    · exact h key hk

theorem url_ne_proto : asc "url" ≠ asc "__proto__" := by decide

theorem agree_resolveUrl (env : MainThread) (arrayBuffer : List Nat) (f w : File)
    (h : AgreeButUrl f w) : AgreeButUrl f (resolveUrl env arrayBuffer w) := by
  intro key hk
  rw [resolveUrl, File.assign, if_neg url_ne_proto, get_put, if_neg (Ne.symm hk)]
  exact h key hk

theorem readRecord_scope (s1 s2 : Scope) (buffer : List Nat) (self : Untar) :
    (∃ e, Untar.readRecord s1 buffer self = .error e ∧
      Untar.readRecord s2 buffer self = .error e) ∨
    ∃ r1 r2, Untar.readRecord s1 buffer self = .ok r1 ∧
      Untar.readRecord s2 buffer self = .ok r2 ∧
      r1.mergedName = r2.mergedName ∧ r1.start = r2.start ∧ r1.size = r2.size ∧
      r1.paxHeader = r2.paxHeader ∧ r1.moveToNextFile = r2.moveToNextFile ∧
      r1.self = r2.self := by
  unfold Untar.readRecord
  cases view buffer self.bytesRead (some 512) with
  | error e => exact Or.inl ⟨e, rfl, rfl⟩
  | ok hb =>
    simp only
    by_cases h0 : substr (asciiDecode hb) 156 1 = asc "0" ∨ substr (asciiDecode hb) 156 1 = []
    · simp only [if_pos h0]
      exact Or.inr ⟨_, _, rfl, rfl, rfl, rfl, rfl, rfl, rfl, rfl⟩
    · simp only [if_neg h0]
      by_cases hg : substr (asciiDecode hb) 156 1 = asc "g"
      · simp only [if_pos hg]
        cases PaxHeader.parse buffer (self.bytesRead.add (some 512))
            (parseInt (substr (asciiDecode hb) 124 12) 8) with
        | error e => exact Or.inl ⟨e, rfl, rfl⟩
        | ok header => exact Or.inr ⟨_, _, rfl, rfl, rfl, rfl, rfl, rfl, rfl, rfl⟩
      · simp only [if_neg hg]
        by_cases hx : substr (asciiDecode hb) 156 1 = asc "x"
        · simp only [if_pos hx]
          cases PaxHeader.parse buffer (self.bytesRead.add (some 512))
              (parseInt (substr (asciiDecode hb) 124 12) 8) with
          | error e => exact Or.inl ⟨e, rfl, rfl⟩
          | ok header => exact Or.inr ⟨_, _, rfl, rfl, rfl, rfl, rfl, rfl, rfl, rfl⟩
        · simp only [if_neg hx]
          exact Or.inr ⟨_, _, rfl, rfl, rfl, rfl, rfl, rfl, rfl, rfl⟩

theorem agree_toFile (r1 r2 : Record) (hn : r1.mergedName = r2.mergedName)
    (hs : r1.start = r2.start) (hz : r1.size = r2.size)
    (hp : r1.paxHeader = r2.paxHeader) (hg : r1.self = r2.self) :
    AgreeButUrl r1.toFile r2.toFile := by
  unfold Record.toFile
  rw [hn, hs, hz, hp, hg]
  exact agree_applyOptional _ _ _ (agree_applyOptional _ _ _ (agree_fileOf _ _ _ _ _))

theorem readNextFile_scope (s1 s2 : Scope) (buffer : List Nat) :
    ∀ (fuel : Nat) (self : Untar),
      (∃ e, Untar._readNextFile s1 buffer fuel self = .error e ∧
        Untar._readNextFile s2 buffer fuel self = .error e) ∨
      ∃ f w self2, Untar._readNextFile s1 buffer fuel self = .ok (f, self2) ∧
        Untar._readNextFile s2 buffer fuel self = .ok (w, self2) ∧ AgreeButUrl f w := by
  intro fuel
  induction fuel with
  | zero => intro self; exact Or.inl ⟨_, rfl, rfl⟩
  | succ fuel ih =>
    intro self
    rw [Untar._readNextFile, Untar._readNextFile]
    rcases readRecord_scope s1 s2 buffer self with ⟨e, h1, h2⟩ |
      ⟨r1, r2, h1, h2, hn, hs, hz, hp, hm, hg⟩
    · rw [h1, h2]
      exact Or.inl ⟨e, rfl, rfl⟩
    · rw [h1, h2]
      simp only [← hm, ← hg]
      by_cases hmv : r1.moveToNextFile = true
      · simp only [if_pos hmv]
        exact ih r1.self
      · simp only [if_neg hmv]
        exact Or.inr ⟨_, _, _, rfl, rfl, agree_toFile r1 r2 hn hs hz hp hg⟩

theorem untarLoop_scope (s1 s2 : Scope) (buffer : List Nat) (pf : Option JSString)
    (depth : Nat) :
    ∀ (fuel : Nat) (self : Untar) (fs ws : List File), List.Forall₂ AgreeButUrl fs ws →
      (∃ e, Untar.untarLoop s1 buffer pf depth fuel self fs = .error e ∧
        Untar.untarLoop s2 buffer pf depth fuel self ws = .error e) ∨
      ∃ out1 out2, Untar.untarLoop s1 buffer pf depth fuel self fs = .ok out1 ∧
        Untar.untarLoop s2 buffer pf depth fuel self ws = .ok out2 ∧
        List.Forall₂ AgreeButUrl out1 out2 := by
  intro fuel
  induction fuel with
  | zero => intro self fs ws _; exact Or.inl ⟨_, rfl, rfl⟩
  | succ fuel ih =>
    intro self fs ws hrel
    rw [Untar.untarLoop, Untar.untarLoop]
    cases Untar._hasNext buffer self with
    | error e => exact Or.inl ⟨e, rfl, rfl⟩
    | ok b =>
      cases b with
      | false => exact Or.inr ⟨fs, ws, rfl, rfl, hrel⟩
      | true =>
        simp only
        rcases readNextFile_scope s1 s2 buffer depth self with ⟨e, h1, h2⟩ |
          ⟨f, w, self2, h1, h2, hfw⟩
        · rw [h1, h2]
          exact Or.inl ⟨e, rfl, rfl⟩
        · rw [h1, h2]
          simp only
          apply ih
          exact List.rel_append hrel
            (List.Forall₂.cons (agree_addPrefix pf f w hfw) List.Forall₂.nil)

theorem forall₂_getElem? {α β : Type} (R : α → β → Prop) :
    ∀ (l1 : List α) (l2 : List β), List.Forall₂ R l1 l2 →
      ∀ (i : Nat) (a : α) (b : β), l1[i]? = some a → l2[i]? = some b → R a b := by
  intro l1 l2 h
  induction h with
  | nil => intro i a b ha; simp at ha
  | cons hab _ ih =>
    intro i a b ha hb
    cases i with
    | zero =>
      simp only [List.getElem?_cons_zero, Option.some.injEq] at ha hb
      rw [← ha, ← hb]
      exact hab
    | succ i =>
      simp only [List.getElem?_cons_succ] at ha hb
      exact ih i a b ha hb

theorem forall₂_resolveUrl (env : MainThread) (arrayBuffer : List Nat) :
    ∀ (fs ws : List File), List.Forall₂ AgreeButUrl fs ws →
      List.Forall₂ AgreeButUrl fs (ws.map (resolveUrl env arrayBuffer)) := by
  intro fs ws h
  induction h with
  | nil => exact List.Forall₂.nil
  | cons hab _ ih => exact List.Forall₂.cons (agree_resolveUrl env arrayBuffer _ _ hab) ih

/-- The function of lines 211 to 219, were it to run, and the response handler
of `UntarWorker.untar` after it, agree with the decoder of the main thread on
every array buffer and with every prefix: either both fail, with the same
error, or both succeed, with lists of the same length whose entries agree one
by one on `name`, `start` and `size`, and on every attribute other than
`url`. -/
theorem handler_agrees_with_direct (env : MainThread) (buffer : List Nat)
    (pf : Option JSString) :
    (∃ err, Untar.untar ⟨false, env.createObjectURL⟩ buffer pf = .error err ∧
      (onmessageHandler pf buffer).map (callbackArguments env buffer) =
        if err = .outOfFuel then none else some (.error err)) ∨
    ∃ direct offloaded,
      Untar.untar ⟨false, env.createObjectURL⟩ buffer pf = .ok direct ∧
      (onmessageHandler pf buffer).map (callbackArguments env buffer) =
        some (.ok offloaded) ∧
      direct.length = offloaded.length ∧
      ∀ (i : Nat) (f w : File), direct[i]? = some f → offloaded[i]? = some w →
        f.get (asc "name") = w.get (asc "name") ∧
        f.get (asc "start") = w.get (asc "start") ∧
        f.get (asc "size") = w.get (asc "size") ∧
        ∀ key, key ≠ asc "url" → f.get key = w.get key := by
  have key := untarLoop_scope ⟨false, env.createObjectURL⟩ workerScope buffer pf
    (buffer.length + 1) (buffer.length + 1) Untar.new [] [] List.Forall₂.nil
  rcases key with ⟨e, h1, h2⟩ | ⟨out1, out2, h1, h2, hrel⟩
  · left
    refine ⟨e, h1, ?_⟩
    have hw : Untar.untar workerScope buffer pf = .error e := h2
    unfold onmessageHandler
    rw [hw]
    cases e <;> rfl
  · right
    have hw : Untar.untar workerScope buffer pf = .ok out2 := h2
    have hrel2 := forall₂_resolveUrl env buffer out1 out2 hrel
    refine ⟨out1, out2.map (resolveUrl env buffer), h1, ?_, hrel2.length_eq, ?_⟩
    · unfold onmessageHandler
      rw [hw]
      rfl
    · intro i f w hf hw2
      have hag := forall₂_getElem? AgreeButUrl _ _ hrel2 i f w hf hw2
      exact ⟨hag _ (by decide), hag _ (by decide), hag _ (by decide), hag⟩

/-- Claim C11, evaluated on the archive of `a.txt` (content `hi`): the call
`UntarScope()` of the main thread runs to its end and the direct decoder
returns the descriptor of `a.txt`, but the script of the worker ends in a
`ReferenceError` at line 84, before it sets its handler; the worker posts
nothing back for any array buffer and any prefix, and the callback of
`UntarWorker.untar` is called neither with an error nor with files. -/
theorem worker_mode_never_answers :
    mainScript = .done false ∧
    workerScript = .referenceError ∧
    Untar.untar directScope (archive [mkRecord (asc "a.txt") 48 (asc "hi")]) none =
      .ok [fileOf (asc "a.txt") (some 512) (some 2) (.str (asc "blob:"))] ∧
    (∀ (filenamePrefix : Option JSString) (arrayBuffer : List Nat),
      workerOnmessage filenamePrefix arrayBuffer = none) ∧
    ((UntarWorker.new none).run plainMainThread
        [.untar (archive [mkRecord (asc "a.txt") 48 (asc "hi")]), .message]).calls = [] ∧
    ((UntarWorker.new none).run plainMainThread
        [.untar (archive [mkRecord (asc "a.txt") 48 (asc "hi")]),
          .message]).pendingRequests = 1 := by
  refine ⟨rfl, rfl, by decide!, fun _ _ => rfl, by decide!, by decide!⟩

end UntarScope
